import Mathlib

/-!
Verification development for the image-metadata CLI pipeline
(`src/index.js` of the node-metadata repository).

The JavaScript source is shallowly embedded: JS strings are Lean `String`
(lists of characters), JSON values are the inductive `Json`, the stateful
batch loop is a pure fold that also emits a trace of observable events
(provider invocations, embeddings, original deletions, inter-item delays).
External collaborators (the AI SDKs, `sharp`, `exiftool`, the filesystem)
are modelled as oracles/parameters; `JSON.parse` is modelled by a JSON
grammar parser (`jsonParse`).
-/

namespace NodeMetadata

/-! ## Character primitives

`toLowerChar` models the per-character action of JS `String.prototype.toLowerCase`
on the ASCII range (the only range the program's own string constants exercise).
`jsWsChar` models the whitespace class trimmed by JS `String.prototype.trim`
(restricted to the common ASCII whitespace characters). -/

def charLookup (c : Char) : List (Char × Char) → Option Char
  | [] => none
  | (k, v) :: rest => if c = k then some v else charLookup c rest

def lowerPairs : List (Char × Char) :=
  [('A', 'a'), ('B', 'b'), ('C', 'c'), ('D', 'd'), ('E', 'e'), ('F', 'f'),
   ('G', 'g'), ('H', 'h'), ('I', 'i'), ('J', 'j'), ('K', 'k'), ('L', 'l'),
   ('M', 'm'), ('N', 'n'), ('O', 'o'), ('P', 'p'), ('Q', 'q'), ('R', 'r'),
   ('S', 's'), ('T', 't'), ('U', 'u'), ('V', 'v'), ('W', 'w'), ('X', 'x'),
   ('Y', 'y'), ('Z', 'z')]

def toLowerChar (c : Char) : Char :=
  (charLookup c lowerPairs).getD c

def jsWsChar (c : Char) : Bool :=
  c = ' ' || c = '\t' || c = '\n' || c = '\r' || c = '\x0b' || c = '\x0c'

theorem charLookup_some_mem {c v : Char} :
    ∀ {ps : List (Char × Char)}, charLookup c ps = some v → (c, v) ∈ ps := by
  intro ps
  induction ps with
  | nil => intro h; simp [charLookup] at h
  | cons p rest ih =>
    intro h
    obtain ⟨k, w⟩ := p
    by_cases hc : c = k
    · subst hc
      simp [charLookup] at h
      simp [h]
    · simp only [charLookup, if_neg hc] at h
      exact List.mem_cons_of_mem _ (ih h)

theorem toLowerChar_idem (c : Char) : toLowerChar (toLowerChar c) = toLowerChar c := by
  unfold toLowerChar
  cases h : charLookup c lowerPairs with
  | none => simp [h]
  | some v =>
    have hv : (c, v) ∈ lowerPairs := charLookup_some_mem h
    simp only [Option.getD_some]
    fin_cases hv <;> decide

theorem jsWsChar_toLowerChar (c : Char) : jsWsChar (toLowerChar c) = jsWsChar c := by
  unfold toLowerChar
  cases h : charLookup c lowerPairs with
  | none => simp [h]
  | some v =>
    have hv : (c, v) ∈ lowerPairs := charLookup_some_mem h
    simp only [Option.getD_some]
    obtain ⟨h1, h2⟩ : jsWsChar c = false ∧ jsWsChar v = false := by
      fin_cases hv <;> exact ⟨by decide, by decide⟩
    rw [h1, h2]

/-! ## JS string helpers: `trim` and `toLowerCase` -/

/-- Model of `s.trim()`: drop leading and trailing whitespace. -/
def trimChars (cs : List Char) : List Char :=
  ((cs.dropWhile jsWsChar).reverse.dropWhile jsWsChar).reverse

def jsTrim (s : String) : String := String.mk (trimChars s.data)

/-- Model of `s.toLowerCase()` (character-wise). -/
def jsToLower (s : String) : String := String.mk (s.data.map toLowerChar)

/-- Model of `tag.trim().toLowerCase()`, the tag-normal form used by the validator. -/
def normTag (s : String) : String := jsToLower (jsTrim s)

theorem head?_dropWhile_false (p : Char → Bool) (l : List Char) (c : Char)
    (h : (l.dropWhile p).head? = some c) : p c = false := by
  induction l with
  | nil => simp at h
  | cons a t ih =>
    by_cases ha : p a
    · exact ih (by simpa [List.dropWhile_cons, ha] using h)
    · rw [List.dropWhile_cons, if_neg (by simp [ha])] at h
      simp only [List.head?_cons, Option.some.injEq] at h
      exact h ▸ Bool.eq_false_iff.mpr ha

theorem getLast?_dropWhile_false (p : Char → Bool) (l : List Char) (c : Char)
    (hl : ∀ c', l.getLast? = some c' → p c' = false)
    (h : (l.dropWhile p).getLast? = some c) : p c = false := by
  apply hl
  have hne : l.dropWhile p ≠ [] := by
    intro hnil; rw [hnil] at h; simp at h
  have happ : l.takeWhile p ++ l.dropWhile p = l := List.takeWhile_append_dropWhile p l
  rw [← happ, List.getLast?_append_of_ne_nil _ hne]
  exact h

theorem dropWhile_eq_self_of_head? (p : Char → Bool) (l : List Char)
    (h : ∀ c, l.head? = some c → p c = false) : l.dropWhile p = l := by
  cases l with
  | nil => rfl
  | cons c t => simp [List.dropWhile_cons, h c rfl]

theorem trimChars_idem (cs : List Char) : trimChars (trimChars cs) = trimChars cs := by
  unfold trimChars
  -- abbreviate the two layers
  have hBlast : ∀ c, (((cs.dropWhile jsWsChar).reverse.dropWhile jsWsChar)).getLast? = some c →
      jsWsChar c = false := by
    intro c hc
    refine getLast?_dropWhile_false jsWsChar _ c ?_ hc
    intro c' hc'
    rw [List.getLast?_reverse] at hc'
    exact head?_dropWhile_false jsWsChar cs c' hc'
  have hBhead : ∀ c, (((cs.dropWhile jsWsChar).reverse.dropWhile jsWsChar)).head? = some c →
      jsWsChar c = false := by
    intro c hc
    exact head?_dropWhile_false jsWsChar _ c hc
  have step1 : ((cs.dropWhile jsWsChar).reverse.dropWhile jsWsChar).reverse.dropWhile jsWsChar
      = ((cs.dropWhile jsWsChar).reverse.dropWhile jsWsChar).reverse := by
    refine dropWhile_eq_self_of_head? jsWsChar _ ?_
    intro c hc
    rw [List.head?_reverse] at hc
    exact hBlast c hc
  rw [step1, List.reverse_reverse, dropWhile_eq_self_of_head? jsWsChar _ hBhead]

theorem trimChars_map_toLower (cs : List Char) :
    trimChars (cs.map toLowerChar) = (trimChars cs).map toLowerChar := by
  have hdw : ∀ l : List Char, (l.map toLowerChar).dropWhile jsWsChar
      = (l.dropWhile jsWsChar).map toLowerChar := by
    intro l
    induction l with
    | nil => rfl
    | cons c t ih =>
      by_cases h : jsWsChar c
      · have h' : jsWsChar (toLowerChar c) = true := by rw [jsWsChar_toLowerChar]; exact h
        simpa [List.dropWhile_cons, h, h'] using ih
      · have h' : jsWsChar (toLowerChar c) = false := by
          rw [jsWsChar_toLowerChar]; exact Bool.eq_false_iff.mpr h
        simp [List.dropWhile_cons, h, h']
  unfold trimChars
  rw [hdw, ← List.map_reverse, hdw, List.map_reverse]

theorem normTag_idem (s : String) : normTag (normTag s) = normTag s := by
  unfold normTag jsToLower jsTrim
  have hdata : ∀ l : List Char, (String.mk l).data = l := fun _ => rfl
  simp only [hdata]
  have h1 : trimChars ((trimChars s.data).map toLowerChar)
      = (trimChars s.data).map toLowerChar := by
    rw [trimChars_map_toLower, trimChars_idem]
  rw [h1, List.map_map]
  congr 1
  exact List.map_congr_left (fun c _ => toLowerChar_idem c)

theorem normTag_ne_empty (s : String) (h : trimChars s.data ≠ []) : normTag s ≠ "" := by
  unfold normTag jsToLower jsTrim
  intro hcontra
  have : ((trimChars s.data).map toLowerChar) = ([] : List Char) := by
    have := congrArg String.data hcontra
    simpa using this
  simp at this
  exact h this

theorem trimChars_of_normTag_fixed (s : String) (hfix : normTag s = s) (hne : s ≠ "") :
    trimChars s.data ≠ [] := by
  intro hcontra
  apply hne
  rw [← hfix]
  unfold normTag jsToLower jsTrim
  have hdata : ∀ l : List Char, (String.mk l).data = l := fun _ => rfl
  apply String.ext
  simp [hdata, hcontra]

/-! ## JSON values and JS object-field operations -/

/-- JSON values as produced by `JSON.parse`. Numbers keep their source lexeme
(the program never computes with parsed numbers). -/
inductive Json where
  | null
  | bool (b : Bool)
  | num (lexeme : String)
  | str (s : String)
  | arr (elems : List Json)
  | obj (fields : List (String × Json))

/-- JS property read `o[k]` on an object's field list (first matching key). -/
def jsGet (k : String) : List (String × Json) → Option Json
  | [] => none
  | (k', v) :: rest => if k' = k then some v else jsGet k rest

def hasKey (k : String) (fields : List (String × Json)) : Bool :=
  fields.any (fun p => p.1 == k)

def setAll (k : String) (v : Json) : List (String × Json) → List (String × Json)
  | [] => []
  | (k', w) :: rest => if k' = k then (k, v) :: setAll k v rest else (k', w) :: setAll k v rest

/-- JS property write `o[k] = v`: an existing key keeps its position and gets the
new value; a missing key is appended (JS object insertion order). -/
def jsSet (fields : List (String × Json)) (k : String) (v : Json) : List (String × Json) :=
  if hasKey k fields then setAll k v fields else fields ++ [(k, v)]

/-- JS object spread `{...x}`. Spreading a string or an array would also create
index-keyed properties; the program never reads those, so they are omitted. -/
def jsSpread : Json → List (String × Json)
  | .obj fields => fields
  | _ => []

theorem hasKey_of_jsGet_some {k : String} {v : Json} :
    ∀ {fs : List (String × Json)}, jsGet k fs = some v → hasKey k fs = true := by
  intro fs
  induction fs with
  | nil => intro h; simp [jsGet] at h
  | cons p rest ih =>
    intro h
    obtain ⟨k', w⟩ := p
    by_cases hk : k' = k
    · simp [hasKey, List.any_cons, hk]
    · rw [jsGet, if_neg hk] at h
      simp [hasKey, List.any_cons] at ih ⊢
      exact Or.inr (ih h)

theorem jsGet_none_of_hasKey_false {k : String} :
    ∀ {fs : List (String × Json)}, hasKey k fs = false → jsGet k fs = none := by
  intro fs
  induction fs with
  | nil => intro _; rfl
  | cons p rest ih =>
    intro h
    obtain ⟨k', w⟩ := p
    simp [hasKey, List.any_cons] at h
    obtain ⟨h1, h2⟩ := h
    rw [jsGet, if_neg (by intro hc; exact h1 hc)]
    exact ih (by simpa [hasKey] using h2)

theorem jsGet_setAll_self {k : String} {v : Json} :
    ∀ {fs : List (String × Json)}, hasKey k fs = true → jsGet k (setAll k v fs) = some v := by
  intro fs
  induction fs with
  | nil => intro h; simp [hasKey] at h
  | cons p rest ih =>
    intro h
    obtain ⟨k', w⟩ := p
    by_cases hk : k' = k
    · rw [setAll, if_pos hk, jsGet, if_pos rfl]
    · rw [setAll, if_neg hk, jsGet, if_neg hk]
      apply ih
      simp only [hasKey, List.any_cons, Bool.or_eq_true, beq_iff_eq] at h
      rcases h with h | h
      · exact absurd h hk
      · exact h

theorem jsGet_append_self {k : String} {v : Json} :
    ∀ {fs : List (String × Json)}, jsGet k fs = none → jsGet k (fs ++ [(k, v)]) = some v := by
  intro fs
  induction fs with
  | nil => intro _; simp [jsGet]
  | cons p rest ih =>
    intro h
    obtain ⟨k', w⟩ := p
    by_cases hk : k' = k
    · rw [jsGet, if_pos hk] at h; cases h
    · rw [jsGet, if_neg hk] at h
      rw [List.cons_append, jsGet, if_neg hk]
      exact ih h

theorem jsGet_jsSet_self (fs : List (String × Json)) (k : String) (v : Json) :
    jsGet k (jsSet fs k v) = some v := by
  unfold jsSet
  by_cases h : hasKey k fs
  · rw [if_pos h]; exact jsGet_setAll_self h
  · rw [if_neg h]
    exact jsGet_append_self (jsGet_none_of_hasKey_false (by simpa using h))

theorem jsGet_setAll_other {k k' : String} {v : Json} (hne : k' ≠ k) :
    ∀ {fs : List (String × Json)}, jsGet k' (setAll k v fs) = jsGet k' fs := by
  intro fs
  induction fs with
  | nil => rfl
  | cons p rest ih =>
    obtain ⟨k0, w⟩ := p
    by_cases hk : k0 = k
    · rw [setAll, if_pos hk, jsGet, if_neg (fun hc => hne hc.symm), jsGet,
        if_neg (fun hc : k0 = k' => hne (hk ▸ hc).symm)]
      exact ih
    · rw [setAll, if_neg hk, jsGet, jsGet]
      by_cases hk' : k0 = k'
      · rw [if_pos hk', if_pos hk']
      · rw [if_neg hk', if_neg hk']
        exact ih

theorem jsGet_append_other {k k' : String} {v : Json} (hne : k' ≠ k) :
    ∀ {fs : List (String × Json)}, jsGet k' (fs ++ [(k, v)]) = jsGet k' fs := by
  intro fs
  induction fs with
  | nil => simp [jsGet, if_neg (fun hc : k = k' => hne hc.symm)]
  | cons p rest ih =>
    obtain ⟨k0, w⟩ := p
    rw [List.cons_append, jsGet, jsGet]
    by_cases hk' : k0 = k'
    · rw [if_pos hk', if_pos hk']
    · rw [if_neg hk', if_neg hk']
      exact ih

theorem jsGet_jsSet_other (fs : List (String × Json)) (k k' : String) (v : Json)
    (hne : k' ≠ k) : jsGet k' (jsSet fs k v) = jsGet k' fs := by
  unfold jsSet
  by_cases h : hasKey k fs
  · rw [if_pos h]; exact jsGet_setAll_other hne
  · rw [if_neg h]; exact jsGet_append_other hne

theorem setAll_mem_key {k : String} {v : Json} :
    ∀ {fs : List (String × Json)}, ∀ p ∈ setAll k v fs, p.1 = k → p.2 = v := by
  intro fs
  induction fs with
  | nil => intro p hp; simp [setAll] at hp
  | cons q rest ih =>
    intro p hp hpk
    obtain ⟨k0, w⟩ := q
    by_cases hk : k0 = k
    · rw [setAll, if_pos hk] at hp
      rcases List.mem_cons.mp hp with hp' | hp'
      · rw [hp']
      · exact ih p hp' hpk
    · rw [setAll, if_neg hk] at hp
      rcases List.mem_cons.mp hp with hp' | hp'
      · rw [hp'] at hpk
        exact absurd hpk hk
      · exact ih p hp' hpk

theorem jsSet_mem_key {fs : List (String × Json)} {k : String} {v : Json} :
    ∀ p ∈ jsSet fs k v, p.1 = k → p.2 = v := by
  unfold jsSet
  by_cases h : hasKey k fs
  · rw [if_pos h]
    exact setAll_mem_key
  · rw [if_neg h]
    intro p hp hpk
    rcases List.mem_append.mp hp with hmem | hmem
    · exfalso
      apply h
      unfold hasKey
      rw [List.any_eq_true]
      exact ⟨p, hmem, by simpa using hpk⟩
    · simp at hmem
      rw [hmem]

theorem setAll_eq_self {k : String} {v : Json} :
    ∀ {fs : List (String × Json)}, (∀ p ∈ fs, p.1 = k → p.2 = v) → setAll k v fs = fs := by
  intro fs
  induction fs with
  | nil => intro _; rfl
  | cons q rest ih =>
    intro hall
    obtain ⟨k0, w⟩ := q
    by_cases hk : k0 = k
    · rw [setAll, if_pos hk]
      have hw : w = v := hall (k0, w) (by simp) hk
      rw [ih (fun p hp hpk => hall p (List.mem_cons_of_mem _ hp) hpk), hk, hw]
    · rw [setAll, if_neg hk]
      rw [ih (fun p hp hpk => hall p (List.mem_cons_of_mem _ hp) hpk)]

theorem jsSet_eq_self {fs : List (String × Json)} {k : String} {v : Json}
    (hany : hasKey k fs = true) (hall : ∀ p ∈ fs, p.1 = k → p.2 = v) :
    jsSet fs k v = fs := by
  unfold jsSet
  rw [if_pos hany]
  exact setAll_eq_self hall

theorem hasKey_jsSet_self (fs : List (String × Json)) (k : String) (v : Json) :
    hasKey k (jsSet fs k v) = true := by
  have := jsGet_jsSet_self fs k v
  exact hasKey_of_jsGet_some this

/-! ## The metadata validator/normalizer (`validateAndFixMetadata`) -/

/-- One step of the tag-collection loop:
`if (typeof tag === "string" && tag.trim()) uniqueTags.add(tag.trim().toLowerCase())`.
The JS `Set` keeps first-insertion order, modelled by conditional append. -/
def addTag (acc : List String) : Json → List String
  | .str s => if trimChars s.data = [] then acc
      else if normTag s ∈ acc then acc else acc ++ [normTag s]
  | _ => acc

/-- Model of `Array.from(uniqueTags)` after the `forEach` insertion loop. -/
def collectTags (tags : List Json) : List String := tags.foldl addTag []

/-- Model of `if (!validatedMetadata.title || typeof validatedMetadata.title !== "string")
validatedMetadata.title = "Untitled Image"`. A JS value passes this guard exactly
when it is a non-empty string (the empty string is falsy). -/
def fixTitle (m0 : List (String × Json)) : List (String × Json) :=
  match jsGet "title" m0 with
  | some (.str s) => if s = "" then jsSet m0 "title" (.str "Untitled Image") else m0
  | _ => jsSet m0 "title" (.str "Untitled Image")

/-- Model of `if (!validatedMetadata.tags || !Array.isArray(validatedMetadata.tags))
validatedMetadata.tags = []` (arrays are always truthy). -/
def fixTagsField (m1 : List (String × Json)) : List (String × Json) :=
  match jsGet "tags" m1 with
  | some (.arr _) => m1
  | _ => jsSet m1 "tags" (.arr [])

/-- The array the `forEach` loop iterates (after the array guard it is
always an array). -/
def tagsArrOf (m2 : List (String × Json)) : List Json :=
  match jsGet "tags" m2 with
  | some (.arr l) => l
  | _ => []

/-- Model of `validateAndFixMetadata(metadata, maxTitleChars, maxTags)` from
`src/index.js`. The title is replaced by the placeholder whenever it is not a
non-empty string; tags are replaced by `[]` unless an array; tags are filtered
to non-empty-after-trim strings, trimmed, lowercased, deduplicated in
first-seen order and truncated to the first `maxTags`. `maxTitleChars` is
accepted but never used, exactly as in the source. -/
def validateAndFixMetadata (metadata : Json) (maxTitleChars maxTags : Nat) : Json :=
  let m2 := fixTagsField (fixTitle (jsSpread metadata))
  let uniq := collectTags (tagsArrOf m2)
  let m3 := jsSet m2 "tags" (.arr (uniq.map Json.str))
  Json.obj (if uniq.length > maxTags
    then jsSet m3 "tags" (.arr ((uniq.take maxTags).map Json.str))
    else m3)

/-- The tag list carried by a (normalized) record, for stating properties. -/
def tagsOf (j : Json) : List String :=
  match j with
  | .obj fields =>
    match jsGet "tags" fields with
    | some (.arr l) => l.filterMap (fun e => match e with | .str s => some s | _ => none)
    | _ => []
  | _ => []

def titleOf (j : Json) : Option Json :=
  match j with
  | .obj fields => jsGet "title" fields
  | _ => none

theorem foldl_addTag_nodup : ∀ (l : List Json) (acc : List String),
    acc.Nodup → (l.foldl addTag acc).Nodup := by
  intro l
  induction l with
  | nil => intro acc h; exact h
  | cons t rest ih =>
    intro acc h
    rw [List.foldl_cons]
    apply ih
    cases t with
    | null => exact h
    | bool b => exact h
    | num lx => exact h
    | arr es => exact h
    | obj fl => exact h
    | str s =>
      show (if trimChars s.data = [] then acc
        else if normTag s ∈ acc then acc else acc ++ [normTag s]).Nodup
      by_cases h1 : trimChars s.data = []
      · rwa [if_pos h1]
      · by_cases h2 : normTag s ∈ acc
        · rwa [if_neg h1, if_pos h2]
        · rw [if_neg h1, if_neg h2, List.nodup_append]
          refine ⟨h, List.nodup_singleton _, ?_⟩
          intro a ha hb
          simp only [List.mem_singleton] at hb
          exact h2 (hb ▸ ha)

theorem foldl_addTag_mem : ∀ (l : List Json) (acc : List String) (x : String),
    x ∈ l.foldl addTag acc → x ∈ acc ∨ ∃ s, x = normTag s ∧ trimChars s.data ≠ [] := by
  intro l
  induction l with
  | nil => intro acc x h; exact Or.inl h
  | cons t rest ih =>
    intro acc x h
    rw [List.foldl_cons] at h
    rcases ih _ x h with hmem | hnorm
    · cases t with
      | null => exact Or.inl hmem
      | bool b => exact Or.inl hmem
      | num lx => exact Or.inl hmem
      | arr es => exact Or.inl hmem
      | obj fl => exact Or.inl hmem
      | str s =>
        have hmem' : x ∈ (if trimChars s.data = [] then acc
            else if normTag s ∈ acc then acc else acc ++ [normTag s]) := hmem
        by_cases h1 : trimChars s.data = []
        · rw [if_pos h1] at hmem'; exact Or.inl hmem'
        · by_cases h2 : normTag s ∈ acc
          · rw [if_neg h1, if_pos h2] at hmem'; exact Or.inl hmem'
          · rw [if_neg h1, if_neg h2] at hmem'
            rcases List.mem_append.mp hmem' with hm | hm
            · exact Or.inl hm
            · simp only [List.mem_singleton] at hm
              exact Or.inr ⟨s, hm, h1⟩
    · exact Or.inr hnorm

theorem collectTags_nodup (l : List Json) : (collectTags l).Nodup :=
  foldl_addTag_nodup l [] List.nodup_nil

theorem collectTags_norm (l : List Json) :
    ∀ x ∈ collectTags l, normTag x = x ∧ x ≠ "" := by
  intro x hx
  rcases foldl_addTag_mem l [] x hx with hmem | ⟨s, hs, hne⟩
  · simp at hmem
  · constructor
    · rw [hs, normTag_idem]
    · rw [hs]; exact normTag_ne_empty s hne

theorem foldl_addTag_fixed : ∀ (xs acc : List String),
    xs.Nodup → (∀ x ∈ xs, normTag x = x ∧ x ≠ "") → (∀ x ∈ xs, x ∉ acc) →
    (xs.map Json.str).foldl addTag acc = acc ++ xs := by
  intro xs
  induction xs with
  | nil => intro acc _ _ _; simp
  | cons x rest ih =>
    intro acc hnd hnorm hdisj
    obtain ⟨hfix, hne⟩ := hnorm x (by simp)
    have htrim : trimChars x.data ≠ [] := trimChars_of_normTag_fixed x hfix hne
    have hx_not : x ∉ acc := hdisj x (by simp)
    rw [List.map_cons, List.foldl_cons]
    have hstep : addTag acc (Json.str x) = acc ++ [x] := by
      show (if trimChars x.data = [] then acc
        else if normTag x ∈ acc then acc else acc ++ [normTag x]) = acc ++ [x]
      rw [if_neg htrim, hfix, if_neg hx_not]
    rw [hstep]
    rw [ih (acc ++ [x]) (List.Nodup.of_cons hnd) (fun y hy => hnorm y (by simp [hy]))
      (fun y hy => by
        rw [List.mem_append]
        rintro (hc | hc)
        · exact hdisj y (by simp [hy]) hc
        · simp at hc
          rw [List.nodup_cons] at hnd
          exact hnd.1 (hc ▸ hy))]
    simp

theorem collectTags_fixed (xs : List String)
    (hnd : xs.Nodup) (hnorm : ∀ x ∈ xs, normTag x = x ∧ x ≠ "") :
    collectTags (xs.map Json.str) = xs := by
  unfold collectTags
  rw [foldl_addTag_fixed xs [] hnd hnorm (by simp)]
  simp

theorem filterMap_str (xs : List String) :
    (xs.map Json.str).filterMap
      (fun e => match e with | Json.str s => some s | _ => none) = xs := by
  rw [List.filterMap_map]
  have h : ((fun e => match e with | Json.str s => some s | _ => none) ∘ Json.str)
      = (some : String → Option String) := rfl
  rw [h, List.filterMap_some]

theorem jsGet_title_fixTitle (m0 : List (String × Json)) :
    ∃ t, jsGet "title" (fixTitle m0) = some (Json.str t) ∧ t ≠ "" := by
  unfold fixTitle
  cases hg : jsGet "title" m0 with
  | none =>
    exact ⟨"Untitled Image", jsGet_jsSet_self m0 "title" (Json.str "Untitled Image"), by decide⟩
  | some j =>
    cases j with
    | str s =>
      show ∃ t, jsGet "title"
          (if s = "" then jsSet m0 "title" (Json.str "Untitled Image") else m0)
          = some (Json.str t) ∧ t ≠ ""
      by_cases hs : s = ""
      · rw [if_pos hs]
        exact ⟨"Untitled Image", jsGet_jsSet_self m0 "title" (Json.str "Untitled Image"), by decide⟩
      · rw [if_neg hs]
        exact ⟨s, hg, hs⟩
    | null =>
      exact ⟨"Untitled Image", jsGet_jsSet_self m0 "title" (Json.str "Untitled Image"), by decide⟩
    | bool b =>
      exact ⟨"Untitled Image", jsGet_jsSet_self m0 "title" (Json.str "Untitled Image"), by decide⟩
    | num lx =>
      exact ⟨"Untitled Image", jsGet_jsSet_self m0 "title" (Json.str "Untitled Image"), by decide⟩
    | arr es =>
      exact ⟨"Untitled Image", jsGet_jsSet_self m0 "title" (Json.str "Untitled Image"), by decide⟩
    | obj fl =>
      exact ⟨"Untitled Image", jsGet_jsSet_self m0 "title" (Json.str "Untitled Image"), by decide⟩

theorem jsGet_title_fixTagsField (m1 : List (String × Json)) :
    jsGet "title" (fixTagsField m1) = jsGet "title" m1 := by
  unfold fixTagsField
  cases hg : jsGet "tags" m1 with
  | none => exact jsGet_jsSet_other m1 "tags" "title" (Json.arr []) (by decide)
  | some j =>
    cases j with
    | arr es => rfl
    | null => exact jsGet_jsSet_other m1 "tags" "title" (Json.arr []) (by decide)
    | bool b => exact jsGet_jsSet_other m1 "tags" "title" (Json.arr []) (by decide)
    | num lx => exact jsGet_jsSet_other m1 "tags" "title" (Json.arr []) (by decide)
    | str s => exact jsGet_jsSet_other m1 "tags" "title" (Json.arr []) (by decide)
    | obj fl => exact jsGet_jsSet_other m1 "tags" "title" (Json.arr []) (by decide)

theorem tagsOf_obj_arr (F : List (String × Json)) (l : List Json)
    (h : jsGet "tags" F = some (Json.arr l)) :
    tagsOf (Json.obj F)
      = l.filterMap (fun e => match e with | Json.str s => some s | _ => none) := by
  show (match jsGet "tags" F with
    | some (Json.arr l) => l.filterMap (fun e => match e with | Json.str s => some s | _ => none)
    | _ => []) = _
  rw [h]

theorem fixTitle_of_ok (m0 : List (String × Json)) (t : String)
    (h : jsGet "title" m0 = some (Json.str t)) (hne : t ≠ "") : fixTitle m0 = m0 := by
  unfold fixTitle
  rw [h]
  show (if t = "" then jsSet m0 "title" (Json.str "Untitled Image") else m0) = m0
  rw [if_neg hne]

theorem fixTagsField_of_arr (m1 : List (String × Json)) (l : List Json)
    (h : jsGet "tags" m1 = some (Json.arr l)) : fixTagsField m1 = m1 := by
  unfold fixTagsField
  rw [h]

theorem tagsArrOf_of_arr (m2 : List (String × Json)) (l : List Json)
    (h : jsGet "tags" m2 = some (Json.arr l)) : tagsArrOf m2 = l := by
  unfold tagsArrOf
  rw [h]

/-- Structural description of the validator's output: an object whose title is a
non-empty string and whose tags field holds the deduplicated, normalized,
truncated tag list. -/
theorem validate_fields_spec (m : Json) (mt mx : Nat) :
    ∃ F final,
      validateAndFixMetadata m mt mx = Json.obj F ∧
      (∃ t, jsGet "title" F = some (Json.str t) ∧ t ≠ "") ∧
      jsGet "tags" F = some (Json.arr (final.map Json.str)) ∧
      (∀ p ∈ F, p.1 = "tags" → p.2 = Json.arr (final.map Json.str)) ∧
      hasKey "tags" F = true ∧
      final.Nodup ∧ (∀ x ∈ final, normTag x = x ∧ x ≠ "") ∧
      final.length ≤ mx ∧
      tagsOf (validateAndFixMetadata m mt mx) = final := by
  have hform : validateAndFixMetadata m mt mx = Json.obj (
      if (collectTags (tagsArrOf (fixTagsField (fixTitle (jsSpread m))))).length > mx
      then jsSet (jsSet (fixTagsField (fixTitle (jsSpread m))) "tags"
          (Json.arr ((collectTags (tagsArrOf (fixTagsField (fixTitle (jsSpread m))))).map Json.str)))
          "tags" (Json.arr (((collectTags (tagsArrOf (fixTagsField (fixTitle (jsSpread m))))).take mx).map Json.str))
      else jsSet (fixTagsField (fixTitle (jsSpread m))) "tags"
          (Json.arr ((collectTags (tagsArrOf (fixTagsField (fixTitle (jsSpread m))))).map Json.str))) := rfl
  obtain ⟨t, ht, htne⟩ := jsGet_title_fixTitle (jsSpread m)
  have htitle2 : jsGet "title" (fixTagsField (fixTitle (jsSpread m))) = some (Json.str t) := by
    rw [jsGet_title_fixTagsField]; exact ht
  by_cases hgt : (collectTags (tagsArrOf (fixTagsField (fixTitle (jsSpread m))))).length > mx
  · rw [if_pos hgt] at hform
    refine ⟨_, (collectTags (tagsArrOf (fixTagsField (fixTitle (jsSpread m))))).take mx,
      hform, ⟨t, ?_, htne⟩, ?_, jsSet_mem_key, ?_, ?_, ?_, ?_, ?_⟩
    · rw [jsGet_jsSet_other _ _ _ _ (by decide), jsGet_jsSet_other _ _ _ _ (by decide)]
      exact htitle2
    · exact jsGet_jsSet_self _ _ _
    · exact hasKey_jsSet_self _ _ _
    · exact (List.take_sublist _ _).nodup (collectTags_nodup _)
    · intro x hx
      exact collectTags_norm _ x (List.take_subset _ _ hx)
    · rw [List.length_take]
      exact min_le_left _ _
    · rw [hform, tagsOf_obj_arr _ _ (jsGet_jsSet_self _ _ _)]
      exact filterMap_str _
  · rw [if_neg hgt] at hform
    refine ⟨_, collectTags (tagsArrOf (fixTagsField (fixTitle (jsSpread m)))),
      hform, ⟨t, ?_, htne⟩, ?_, jsSet_mem_key, ?_, ?_, ?_, ?_, ?_⟩
    · rw [jsGet_jsSet_other _ _ _ _ (by decide)]
      exact htitle2
    · exact jsGet_jsSet_self _ _ _
    · exact hasKey_jsSet_self _ _ _
    · exact collectTags_nodup _
    · exact collectTags_norm _
    · omega
    · rw [hform, tagsOf_obj_arr _ _ (jsGet_jsSet_self _ _ _)]
      exact filterMap_str _

/-- C3 — Tag invariants after normalization: the output tag list has no two
elements equal under case-insensitive comparison after trimming
(`tag.trim().toLowerCase()`), and its length is at most `maxTags`. -/
theorem tag_invariants_after_normalization (m : Json) (maxTitleChars maxTags : Nat)
    (hpos : 0 < maxTags) :
    (tagsOf (validateAndFixMetadata m maxTitleChars maxTags)).Pairwise
      (fun a b => normTag a ≠ normTag b) ∧
    (tagsOf (validateAndFixMetadata m maxTitleChars maxTags)).length ≤ maxTags := by
  obtain ⟨F, final, _, _, _, _, _, hnd, hnorm, hlen, htags⟩ :=
    validate_fields_spec m maxTitleChars maxTags
  rw [htags]
  constructor
  · refine List.Pairwise.imp_of_mem ?_ hnd
    intro a b ha hb hne
    rw [(hnorm a ha).1, (hnorm b hb).1]
    exact hne
  · exact hlen

/-- Witness for C3 at a concrete record. -/
theorem tag_invariants_after_normalization_witness :
    (0 : Nat) < 3 ∧
    (tagsOf (validateAndFixMetadata
        (Json.obj [("title", Json.str "Sunset"),
          ("tags", Json.arr [Json.str "Sky", Json.str " sky", Json.str "Sea",
            Json.str "Sun", Json.str "Dusk"])]) 200 3)).Pairwise
      (fun a b => normTag a ≠ normTag b) ∧
    (tagsOf (validateAndFixMetadata
        (Json.obj [("title", Json.str "Sunset"),
          ("tags", Json.arr [Json.str "Sky", Json.str " sky", Json.str "Sea",
            Json.str "Sun", Json.str "Dusk"])]) 200 3)).length ≤ 3 := by
  refine ⟨by decide, ?_, ?_⟩
  · exact (tag_invariants_after_normalization _ 200 3 (by decide)).1
  · exact (tag_invariants_after_normalization _ 200 3 (by decide)).2

/-- C4 — Idempotence of normalization: applying `validateAndFixMetadata` twice
yields the same record as applying it once. -/
theorem normalization_idempotent (m : Json) (maxTitleChars maxTags : Nat) :
    validateAndFixMetadata (validateAndFixMetadata m maxTitleChars maxTags) maxTitleChars maxTags
      = validateAndFixMetadata m maxTitleChars maxTags := by
  obtain ⟨F, final, hF, ⟨t, httl, htne⟩, htags, hmemkey, hkey, hnd, hnorm, hlen, _⟩ :=
    validate_fields_spec m maxTitleChars maxTags
  rw [hF]
  have hspread : jsSpread (Json.obj F) = F := rfl
  have hfixTitle : fixTitle F = F := fixTitle_of_ok F t httl htne
  have hfixTags : fixTagsField F = F := fixTagsField_of_arr F _ htags
  have htagsArr : tagsArrOf F = final.map Json.str := tagsArrOf_of_arr F _ htags
  have hcollect : collectTags (tagsArrOf F) = final := by
    rw [htagsArr]
    exact collectTags_fixed final hnd hnorm
  have hnotgt : ¬ (collectTags (tagsArrOf F)).length > maxTags := by
    rw [hcollect]; omega
  have hform : validateAndFixMetadata (Json.obj F) maxTitleChars maxTags = Json.obj (
      if (collectTags (tagsArrOf (fixTagsField (fixTitle (jsSpread (Json.obj F)))))).length > maxTags
      then jsSet (jsSet (fixTagsField (fixTitle (jsSpread (Json.obj F)))) "tags"
          (Json.arr ((collectTags (tagsArrOf (fixTagsField (fixTitle (jsSpread (Json.obj F)))))).map Json.str)))
          "tags" (Json.arr (((collectTags (tagsArrOf (fixTagsField (fixTitle (jsSpread (Json.obj F)))))).take maxTags).map Json.str))
      else jsSet (fixTagsField (fixTitle (jsSpread (Json.obj F)))) "tags"
          (Json.arr ((collectTags (tagsArrOf (fixTagsField (fixTitle (jsSpread (Json.obj F)))))).map Json.str))) := rfl
  rw [hform, hspread, hfixTitle, hfixTags, if_neg hnotgt, hcollect]
  congr 1
  exact jsSet_eq_self hkey hmemkey

/-- C8 — Truncation policy with first-seen order: with `maxTags = 5` and tags
`["Cat","cat ","Dog","Bird","Fish","Lion","Tiger"]`, normalization yields
exactly `["cat","dog","bird","fish","lion"]`. -/
theorem truncation_policy_first_seen :
    tagsOf (validateAndFixMetadata
      (Json.obj [("title", Json.str "A title"),
        ("tags", Json.arr [Json.str "Cat", Json.str "cat ", Json.str "Dog",
          Json.str "Bird", Json.str "Fish", Json.str "Lion", Json.str "Tiger"])])
      200 5) = ["cat", "dog", "bird", "fish", "lion"] := by
  decide

/-! ## `JSON.parse` (collaborator model)

A fuel-indexed recursive-descent parser for the JSON grammar. Numbers keep
their lexeme; strings decode the standard escapes (`\uXXXX` is decoded as a
scalar value; surrogate pairing is not modelled — no concrete input here uses
it). Duplicate object keys behave as in JS: last value wins, first position
kept (`jsSet`). -/

def jsonWsChar (c : Char) : Bool := c = ' ' || c = '\t' || c = '\n' || c = '\r'

def skipJsonWs (cs : List Char) : List Char := cs.dropWhile jsonWsChar

def hexVal (c : Char) : Option Nat :=
  if '0' ≤ c ∧ c ≤ '9' then some (c.toNat - 48)
  else if 'a' ≤ c ∧ c ≤ 'f' then some (c.toNat - 87)
  else if 'A' ≤ c ∧ c ≤ 'F' then some (c.toNat - 55)
  else none

def escChar (e : Char) : Option Char :=
  match e with
  | '"' => some '"'
  | '\\' => some '\\'
  | '/' => some '/'
  | 'b' => some (Char.ofNat 8)
  | 'f' => some (Char.ofNat 12)
  | 'n' => some '\n'
  | 'r' => some '\r'
  | 't' => some '\t'
  | _ => none

def pString (cs : List Char) : Option (List Char × List Char) :=
  match cs with
  | [] => none
  | '"' :: rest => some ([], rest)
  | '\\' :: 'u' :: h1 :: h2 :: h3 :: h4 :: rest => do
      let a ← hexVal h1
      let b ← hexVal h2
      let c ← hexVal h3
      let d ← hexVal h4
      let (s, r) ← pString rest
      some (Char.ofNat (((a * 16 + b) * 16 + c) * 16 + d) :: s, r)
  | '\\' :: e :: rest => do
      let c ← escChar e
      let (s, r) ← pString rest
      some (c :: s, r)
  | c :: rest =>
      if c.toNat < 32 then none
      else do
        let (s, r) ← pString rest
        some (c :: s, r)

def pDigits (cs : List Char) : List Char × List Char :=
  (cs.takeWhile Char.isDigit, cs.dropWhile Char.isDigit)

def pIntPart (cs : List Char) : Option (List Char × List Char) :=
  match cs with
  | '0' :: r => some (['0'], r)
  | c :: r =>
    if '1' ≤ c ∧ c ≤ '9' then
      let (ds, r') := pDigits r
      some (c :: ds, r')
    else none
  | [] => none

def pFracPart (cs : List Char) : Option (List Char × List Char) :=
  match cs with
  | '.' :: r =>
    let (ds, r') := pDigits r
    if ds.isEmpty then none else some ('.' :: ds, r')
  | _ => some ([], cs)

def pExpPart (cs : List Char) : Option (List Char × List Char) :=
  match cs with
  | e :: r =>
    if e = 'e' || e = 'E' then
      let (sgn, r1) := match r with
        | '+' :: r' => ((['+'] : List Char), r')
        | '-' :: r' => ((['-'] : List Char), r')
        | _ => ([], r)
      let (ds, r2) := pDigits r1
      if ds.isEmpty then none else some (e :: (sgn ++ ds), r2)
    else some ([], cs)
  | [] => some ([], [])

def pNum (cs : List Char) : Option (List Char × List Char) := do
  let (neg, cs1) := match cs with
    | '-' :: r => ((['-'] : List Char), r)
    | _ => ([], cs)
  let (i, r1) ← pIntPart cs1
  let (f, r2) ← pFracPart r1
  let (e, r3) ← pExpPart r2
  some (neg ++ i ++ f ++ e, r3)

def dropLit (lit cs : List Char) : Option (List Char) :=
  if lit.isPrefixOf cs then some (cs.drop lit.length) else none

mutual

def pVal (fuel : Nat) (cs : List Char) : Option (Json × List Char) :=
  match fuel with
  | 0 => none
  | fuel + 1 =>
    match skipJsonWs cs with
    | '{' :: rest =>
      match skipJsonWs rest with
      | '}' :: r => some (.obj [], r)
      | _ => do
        let (fs, r) ← pMembers fuel rest []
        some (.obj fs, r)
    | '[' :: rest =>
      match skipJsonWs rest with
      | ']' :: r => some (.arr [], r)
      | _ => do
        let (es, r) ← pElems fuel rest []
        some (.arr es, r)
    | '"' :: rest => do
      let (s, r) ← pString rest
      some (.str (String.mk s), r)
    | 't' :: rest => do
      let r ← dropLit ['r', 'u', 'e'] rest
      some (.bool true, r)
    | 'f' :: rest => do
      let r ← dropLit ['a', 'l', 's', 'e'] rest
      some (.bool false, r)
    | 'n' :: rest => do
      let r ← dropLit ['u', 'l', 'l'] rest
      some (.null, r)
    | other => do
      let (lex, r) ← pNum other
      some (.num (String.mk lex), r)

def pMembers (fuel : Nat) (cs : List Char) (acc : List (String × Json)) :
    Option (List (String × Json) × List Char) :=
  match fuel with
  | 0 => none
  | fuel + 1 =>
    match skipJsonWs cs with
    | '"' :: rest => do
      let (k, r1) ← pString rest
      match skipJsonWs r1 with
      | ':' :: r2 => do
        let (v, r3) ← pVal fuel r2
        let acc' := jsSet acc (String.mk k) v
        match skipJsonWs r3 with
        | ',' :: r4 => pMembers fuel r4 acc'
        | '}' :: r4 => some (acc', r4)
        | _ => none
      | _ => none
    | _ => none

def pElems (fuel : Nat) (cs : List Char) (acc : List Json) :
    Option (List Json × List Char) :=
  match fuel with
  | 0 => none
  | fuel + 1 => do
    let (v, r) ← pVal fuel cs
    match skipJsonWs r with
    | ',' :: r2 => pElems fuel r2 (acc ++ [v])
    | ']' :: r2 => some (acc ++ [v], r2)
    | _ => none

end

/-- Model of `JSON.parse(s)`: `some` on success, `none` when it would throw. -/
def jsonParse (s : String) : Option Json :=
  match pVal (2 * s.data.length + 2) s.data with
  | some (j, rest) => if (skipJsonWs rest).isEmpty then some j else none
  | none => none

/-! ## Response extraction (`metadataText.match(...)` plus `JSON.parse`)

Both generators run the same layered recovery:
```
const jsonMatch = metadataText.match(RE1) || metadataText.match(RE2);
if (jsonMatch) metadata = JSON.parse(jsonMatch[1] || jsonMatch[0]);
else try { metadata = JSON.parse(metadataText); }
     catch (e) { throw new Error("Could not parse ... response as JSON"); }
```
`RE1` is the fenced-block regex (lazy body): it matches at the leftmost
possible start and takes the shortest body up to the next close marker.
`RE2` is the greedy brace regex: from the first opening brace to the last
closing brace of the remainder. -/

def splitFirst (pat : List Char) (cs : List Char) : Option (List Char × List Char) :=
  match cs with
  | [] => none
  | c :: rest =>
    if pat.isPrefixOf (c :: rest) then some ([], (c :: rest).drop pat.length)
    else
      match splitFirst pat rest with
      | some (l, r) => some (c :: l, r)
      | none => none

def fenceOpenMark : List Char := "```json\n".data

def fenceCloseMark : List Char := "\n```".data

def braceOpen : Char := '{'

def braceClose : Char := '}'

/-- The regex `/```json\n([\s\S]*?)\n```/`: `(whole match, capture group 1)`. -/
def matchFenced (cs : List Char) : Option (List Char × List Char) :=
  match splitFirst fenceOpenMark cs with
  | none => none
  | some (_, rest) =>
    match splitFirst fenceCloseMark rest with
    | none => none
    | some (body, _) => some (fenceOpenMark ++ body ++ fenceCloseMark, body)

/-- The regex `/{[\s\S]*}/` (greedy): from the first opening brace to the last
closing brace after it. -/
def matchBrace (cs : List Char) : Option (List Char) :=
  match splitFirst [braceOpen] cs with
  | none => none
  | some (_, rest) =>
    match splitFirst [braceClose] rest.reverse with
    | none => none
    | some (_, revInit) => some (braceOpen :: (revInit.reverse ++ [braceClose]))

/-- Candidate selection `jsonMatch[1] || jsonMatch[0]`: for a fenced match, the capture group when
non-empty, else the whole match (backticks included); for a brace match, the
whole match (the regex has no groups, `jsonMatch[1]` is `undefined`). -/
def jsonCandidate (cs : List Char) : Option (List Char) :=
  match matchFenced cs with
  | some (whole, group) => some (if group.isEmpty then whole else group)
  | none => matchBrace cs

/-- How generation fails on the JS side. -/
inductive JsError where
  | uncaughtParse
  | couldNotParse (msg : String)
  | typeError
deriving DecidableEq

/-- Outcome of `JSON.parse(cand)` on a regex-selected candidate: a parse
failure there is NOT caught by the code and aborts generation. -/
def parseCandidate (cand : List Char) : Except JsError Json :=
  match jsonParse (String.mk cand) with
  | some j => .ok j
  | none => .error .uncaughtParse

/-- The extraction block shared by both generators (`failMsg` differs). -/
def extractJson (failMsg : String) (text : String) : Except JsError Json :=
  match jsonCandidate text.data with
  | some cand => parseCandidate cand
  | none =>
    match jsonParse text with
    | some j => .ok j
    | none => .error (.couldNotParse failMsg)

/-! ### Properties of `splitFirst` -/

theorem splitFirst_sound {pat : List Char} :
    ∀ {cs l r : List Char}, splitFirst pat cs = some (l, r) → cs = l ++ pat ++ r := by
  intro cs
  induction cs with
  | nil => intro l r h; simp [splitFirst] at h
  | cons c rest ih =>
    intro l r h
    rw [splitFirst] at h
    by_cases hp : pat.isPrefixOf (c :: rest)
    · rw [if_pos hp] at h
      obtain ⟨hl, hr⟩ := Prod.mk.injEq .. ▸ (Option.some.injEq _ _ ▸ h)
      obtain ⟨t, ht⟩ := List.isPrefixOf_iff_prefix.mp hp
      rw [← hl, ← hr, List.nil_append]
      conv_lhs => rw [← ht]
      rw [← ht, List.drop_left]
    · rw [if_neg hp] at h
      cases hsub : splitFirst pat rest with
      | none => rw [hsub] at h; cases h
      | some p =>
        obtain ⟨l', r'⟩ := p
        rw [hsub] at h
        obtain ⟨hl, hr⟩ := Prod.mk.injEq .. ▸ (Option.some.injEq _ _ ▸ h)
        rw [← hl, ← hr]
        simp only [List.cons_append]
        rw [← ih hsub]

theorem splitFirst_isSome {pat : List Char} (hpat : pat ≠ []) :
    ∀ {a b : List Char}, splitFirst pat (a ++ pat ++ b) ≠ none := by
  intro a
  induction a with
  | nil =>
    intro b h
    cases pat with
    | nil => exact hpat rfl
    | cons p ps =>
      rw [List.nil_append, List.cons_append, splitFirst,
        if_pos (List.isPrefixOf_iff_prefix.mpr ⟨b, by simp⟩)] at h
      cases h
  | cons c rest ih =>
    intro b h
    have hshape : (c :: rest) ++ pat ++ b = c :: (rest ++ pat ++ b) := by simp
    rw [hshape, splitFirst] at h
    by_cases hp : pat.isPrefixOf (c :: (rest ++ pat ++ b))
    · rw [if_pos hp] at h; cases h
    · rw [if_neg hp] at h
      cases hsub : splitFirst pat (rest ++ pat ++ b) with
      | none => exact ih hsub
      | some p => obtain ⟨l', r'⟩ := p; rw [hsub] at h; cases h

theorem splitFirst_leftmost {pat : List Char} :
    ∀ {cs l r : List Char}, splitFirst pat cs = some (l, r) →
      ∀ a b, cs = a ++ pat ++ b → l.length ≤ a.length := by
  intro cs
  induction cs with
  | nil => intro l r h; simp [splitFirst] at h
  | cons c rest ih =>
    intro l r h a b hab
    rw [splitFirst] at h
    by_cases hp : pat.isPrefixOf (c :: rest)
    · rw [if_pos hp] at h
      obtain ⟨hl, _⟩ := Prod.mk.injEq .. ▸ (Option.some.injEq _ _ ▸ h)
      rw [← hl]
      simp
    · rw [if_neg hp] at h
      cases a with
      | nil =>
        exfalso
        apply hp
        exact List.isPrefixOf_iff_prefix.mpr ⟨b, by simpa using hab.symm⟩
      | cons a0 atl =>
        simp only [List.cons_append, List.cons.injEq] at hab
        obtain ⟨_, hab'⟩ := hab
        cases hsub : splitFirst pat rest with
        | none => rw [hsub] at h; cases h
        | some p =>
          obtain ⟨l', r'⟩ := p
          rw [hsub] at h
          obtain ⟨hl, _⟩ := Prod.mk.injEq .. ▸ (Option.some.injEq _ _ ▸ h)
          rw [← hl, List.length_cons, List.length_cons]
          exact Nat.succ_le_succ (ih hsub atl b hab')

theorem splitFirst_single_not_mem {c : Char} :
    ∀ {cs l r : List Char}, splitFirst [c] cs = some (l, r) → c ∉ l := by
  intro cs
  induction cs with
  | nil => intro l r h; simp [splitFirst] at h
  | cons c0 rest ih =>
    intro l r h
    rw [splitFirst] at h
    by_cases hp : List.isPrefixOf [c] (c0 :: rest)
    · rw [if_pos hp] at h
      obtain ⟨hl, _⟩ := Prod.mk.injEq .. ▸ (Option.some.injEq _ _ ▸ h)
      rw [← hl]
      simp
    · rw [if_neg hp] at h
      have hc0 : c ≠ c0 := by
        intro hc
        apply hp
        exact List.isPrefixOf_iff_prefix.mpr ⟨rest, by rw [hc]; rfl⟩
      cases hsub : splitFirst [c] rest with
      | none => rw [hsub] at h; cases h
      | some p =>
        obtain ⟨l', r'⟩ := p
        rw [hsub] at h
        obtain ⟨hl, _⟩ := Prod.mk.injEq .. ▸ (Option.some.injEq _ _ ▸ h)
        rw [← hl]
        intro hmem
        rcases List.mem_cons.mp hmem with hmem' | hmem'
        · exact hc0 hmem'
        · exact ih hsub hmem'

/-! ### Characterizations of the two regex matchers -/

theorem matchFenced_sound {cs w b : List Char} (h : matchFenced cs = some (w, b)) :
    (∃ pre post, cs = pre ++ fenceOpenMark ++ b ++ fenceCloseMark ++ post) ∧
    w = fenceOpenMark ++ b ++ fenceCloseMark := by
  unfold matchFenced at h
  cases hopen : splitFirst fenceOpenMark cs with
  | none => rw [hopen] at h; cases h
  | some p =>
    obtain ⟨pre, rest⟩ := p
    rw [hopen] at h
    have h2 : (match splitFirst fenceCloseMark rest with
        | none => none
        | some (body, _) => some (fenceOpenMark ++ body ++ fenceCloseMark, body))
        = some (w, b) := h
    cases hclose : splitFirst fenceCloseMark rest with
    | none => rw [hclose] at h2; cases h2
    | some q =>
      obtain ⟨body, post⟩ := q
      rw [hclose] at h2
      obtain ⟨hw, hb⟩ := Prod.mk.injEq .. ▸ (Option.some.injEq _ _ ▸ h2)
      subst hb
      constructor
      · refine ⟨pre, post, ?_⟩
        have h1 := splitFirst_sound hopen
        have h2 := splitFirst_sound hclose
        rw [h1, h2]
        simp [List.append_assoc]
      · exact hw.symm

theorem matchFenced_complete {cs pre body post : List Char}
    (h : cs = pre ++ fenceOpenMark ++ body ++ fenceCloseMark ++ post) :
    matchFenced cs ≠ none := by
  have hshape : cs = pre ++ fenceOpenMark ++ (body ++ fenceCloseMark ++ post) := by
    rw [h]; simp [List.append_assoc]
  cases hopen : splitFirst fenceOpenMark cs with
  | none =>
    rw [hshape] at hopen
    exact absurd hopen (splitFirst_isSome (by decide))
  | some p =>
    obtain ⟨l, rest⟩ := p
    unfold matchFenced
    rw [hopen]
    show (match splitFirst fenceCloseMark rest with
      | none => none
      | some (body, _) => some (fenceOpenMark ++ body ++ fenceCloseMark, body)) ≠ none
    cases hclose : splitFirst fenceCloseMark rest with
    | some q => obtain ⟨b', p'⟩ := q; simp
    | none =>
      exfalso
      have hcs1 : cs = l ++ fenceOpenMark ++ rest := splitFirst_sound hopen
      have hlen : l.length ≤ pre.length :=
        splitFirst_leftmost hopen pre (body ++ fenceCloseMark ++ post) hshape
      have hrest : rest = List.drop (l.length + fenceOpenMark.length) cs := by
        rw [hcs1]
        have : l ++ fenceOpenMark ++ rest = (l ++ fenceOpenMark) ++ rest := by
          simp [List.append_assoc]
        rw [this, ← List.length_append, List.drop_left]
      have hble : l.length + fenceOpenMark.length ≤ (pre ++ fenceOpenMark ++ body).length := by
        simp only [List.length_append]
        omega
      have hdecomp : rest = ((pre ++ fenceOpenMark ++ body).drop (l.length + fenceOpenMark.length))
          ++ fenceCloseMark ++ post := by
        rw [hrest, h]
        have hre : pre ++ fenceOpenMark ++ body ++ fenceCloseMark ++ post
            = (pre ++ fenceOpenMark ++ body) ++ (fenceCloseMark ++ post) := by
          simp [List.append_assoc]
        rw [hre, List.drop_append_of_le_length hble]
        simp [List.append_assoc]
      rw [hdecomp] at hclose
      exact splitFirst_isSome (by decide) hclose

theorem matchBrace_sound {cs m : List Char} (h : matchBrace cs = some m) :
    ∃ pre mid post, cs = pre ++ braceOpen :: (mid ++ braceClose :: post) ∧
      braceOpen ∉ pre ∧ braceClose ∉ post ∧ m = braceOpen :: (mid ++ [braceClose]) := by
  unfold matchBrace at h
  cases hopen : splitFirst [braceOpen] cs with
  | none => rw [hopen] at h; cases h
  | some p =>
    obtain ⟨pre, rest⟩ := p
    rw [hopen] at h
    have h2 : (match splitFirst [braceClose] rest.reverse with
        | none => none
        | some (_, revInit) => some (braceOpen :: (revInit.reverse ++ [braceClose])))
        = some m := h
    cases hclose : splitFirst [braceClose] rest.reverse with
    | none => rw [hclose] at h2; cases h2
    | some q =>
      obtain ⟨revTail, revInit⟩ := q
      rw [hclose] at h2
      have hm := (Option.some.injEq _ _ ▸ h2).symm
      have h1 := splitFirst_sound hopen
      have h2 := splitFirst_sound hclose
      have hrest : rest = revInit.reverse ++ braceClose :: revTail.reverse := by
        have := congrArg List.reverse h2
        rw [List.reverse_reverse] at this
        rw [this]
        simp [List.reverse_append]
      refine ⟨pre, revInit.reverse, revTail.reverse, ?_, ?_, ?_, ?_⟩
      · rw [h1, hrest]
        simp [List.append_assoc]
      · exact splitFirst_single_not_mem hopen
      · rw [List.mem_reverse]
        exact splitFirst_single_not_mem hclose
      · rw [hm]

theorem matchBrace_complete {cs pre mid post : List Char}
    (h : cs = pre ++ braceOpen :: (mid ++ braceClose :: post)) :
    matchBrace cs ≠ none := by
  have hshape : cs = pre ++ [braceOpen] ++ (mid ++ braceClose :: post) := by
    rw [h]; simp
  cases hopen : splitFirst [braceOpen] cs with
  | none =>
    rw [hshape] at hopen
    exact absurd hopen (splitFirst_isSome (by decide))
  | some p =>
    obtain ⟨l, rest⟩ := p
    unfold matchBrace
    rw [hopen]
    show (match splitFirst [braceClose] rest.reverse with
      | none => none
      | some (_, revInit) => some (braceOpen :: (revInit.reverse ++ [braceClose]))) ≠ none
    cases hclose : splitFirst [braceClose] rest.reverse with
    | some q => obtain ⟨a', b'⟩ := q; simp
    | none =>
      exfalso
      have hcs1 : cs = l ++ [braceOpen] ++ rest := splitFirst_sound hopen
      have hlen : l.length ≤ pre.length :=
        splitFirst_leftmost hopen pre (mid ++ braceClose :: post) hshape
      have hrest : rest = List.drop (l.length + 1) cs := by
        rw [hcs1]
        have hsh : l ++ [braceOpen] ++ rest = (l ++ [braceOpen]) ++ rest := by
          simp [List.append_assoc]
        have hln : l.length + 1 = (l ++ [braceOpen]).length := by simp
        rw [hsh, hln, List.drop_left]
      have hble : l.length + 1 ≤ (pre ++ [braceOpen] ++ mid).length := by
        simp only [List.length_append, List.length_cons, List.length_nil]
        omega
      have hmem : braceClose ∈ rest := by
        rw [hrest, hshape]
        have hre : pre ++ [braceOpen] ++ (mid ++ braceClose :: post)
            = (pre ++ [braceOpen] ++ mid) ++ (braceClose :: post) := by
          simp [List.append_assoc]
        rw [hre, List.drop_append_of_le_length hble]
        simp
      obtain ⟨s, t, hst⟩ := List.append_of_mem ((List.mem_reverse).mpr hmem)
      have hst' : rest.reverse = s ++ [braceClose] ++ t := by rw [hst]; simp
      rw [hst'] at hclose
      exact splitFirst_isSome (by decide) hclose

/-! ### Extraction dispatch -/

theorem extractJson_fenced (failMsg : String) (t : String) (w b : List Char)
    (h : matchFenced t.data = some (w, b)) :
    extractJson failMsg t = parseCandidate (if b.isEmpty then w else b) := by
  unfold extractJson jsonCandidate
  rw [h]

theorem extractJson_brace (failMsg : String) (t : String) (m : List Char)
    (hf : matchFenced t.data = none) (hb : matchBrace t.data = some m) :
    extractJson failMsg t = parseCandidate m := by
  unfold extractJson jsonCandidate
  rw [hf, hb]

theorem extractJson_direct (failMsg : String) (t : String)
    (hf : matchFenced t.data = none) (hb : matchBrace t.data = none) :
    extractJson failMsg t = (match jsonParse t with
      | some j => Except.ok j
      | none => Except.error (.couldNotParse failMsg)) := by
  unfold extractJson jsonCandidate
  rw [hf, hb]

/-- Modelled from the spec: "the first top-level brace-delimited region found
in the text" (claim C2's reading of the brace fallback). The source's regex
`/{[\s\S]*}/` is greedy instead; this definition exists only to compare the
two behaviors. `regionFrom` scans with a depth counter until the matching
close of the first opening brace. -/
def regionFrom : List Char → Nat → List Char → Option (List Char)
  | [], _, _ => none
  | c :: rest, depth, acc =>
    if c = braceClose then
      if depth = 0 then some (acc ++ [braceClose])
      else regionFrom rest (depth - 1) (acc ++ [braceClose])
    else if c = braceOpen then regionFrom rest (depth + 1) (acc ++ [braceOpen])
    else regionFrom rest depth (acc ++ [c])

def firstBraceRegionSpec (cs : List Char) : Option (List Char) :=
  match splitFirst [braceOpen] cs with
  | none => none
  | some (_, rest) => regionFrom rest 0 [braceOpen]

/-! ## The two generators' response handling

`generateMetadataWithGPT` / `generateMetadataWithGemini` are modelled from the
point where the provider SDK's response is in hand (the compression, base64
encoding and network call before it are collaborators; their failures abort
the item before any of the logic below runs). `content` is
`response.choices[0].message.content`, `usage` is `response.usage`;
`text` is `response.text()`, `usageMetadata` is `response.usageMetadata`. -/

structure GptUsage where
  prompt_tokens : Nat
  completion_tokens : Nat
  total_tokens : Nat

structure GptResponse where
  content : String
  usage : Option GptUsage

def gptUsageJson (u : GptUsage) : Json :=
  Json.obj [("prompt", Json.num (Nat.repr u.prompt_tokens)),
    ("completion", Json.num (Nat.repr u.completion_tokens)),
    ("total", Json.num (Nat.repr u.total_tokens))]

/-- Model of `metadata.tokenInfo = tokensUsed`. On a parsed object this sets the field;
on a primitive or `null` the assignment throws in strict mode (ES modules).
A parsed array would accept the property; the extra non-index property of an
array is not representable here, and no later read depends on it. -/
def attachTokenInfo (metadata : Json) (v : Json) : Except JsError Json :=
  match metadata with
  | .obj fs => .ok (.obj (jsSet fs "tokenInfo" v))
  | .arr es => .ok (.arr es)
  | _ => .error .typeError

/-- Response handling of `generateMetadataWithGPT`: note that
`const tokensUsed = { prompt: response.usage.prompt_tokens, ... }` runs
unconditionally BEFORE extraction, so an absent `usage` throws a `TypeError`
(reading a property of `undefined`). -/
def generateMetadataWithGPT (resp : GptResponse) : Except JsError Json :=
  match resp.usage with
  | none => .error .typeError
  | some u =>
    match extractJson "Could not parse GPT response as JSON" resp.content with
    | .error e => .error e
    | .ok metadata => attachTokenInfo metadata (gptUsageJson u)

structure GeminiUsage where
  promptTokenCount : Option Nat
  totalTokenCount : Option Nat

structure GeminiResponse where
  text : String
  usageMetadata : Option GeminiUsage

/-- Model of `if (response.usageMetadata) tokensUsed = {prompt: ... || 0, total: ... || 0}`,
guarded, inside `try` — absence leaves `tokensUsed = null`. -/
def geminiTokensUsed (resp : GeminiResponse) : Option Json :=
  match resp.usageMetadata with
  | some u => some (Json.obj
      [("prompt", Json.num (Nat.repr (u.promptTokenCount.getD 0))),
       ("total", Json.num (Nat.repr (u.totalTokenCount.getD 0)))])
  | none => none

/-- Response handling of `generateMetadataWithGemini`: extraction, then
`validateAndFixMetadata`, then `if (tokensUsed) metadata.tokenInfo = tokensUsed`. -/
def generateMetadataWithGemini (resp : GeminiResponse) (maxTitleChars maxTags : Nat) :
    Except JsError Json :=
  match extractJson "Could not parse Gemini response as JSON" resp.text with
  | .error e => .error e
  | .ok metadata =>
    match geminiTokensUsed resp with
    | some ti => attachTokenInfo (validateAndFixMetadata metadata maxTitleChars maxTags) ti
    | none => .ok (validateAndFixMetadata metadata maxTitleChars maxTags)

/-- C2 (amended) — Response extraction layered fallback, first success wins:
(a) a fenced ```json block is matched first (the decomposition below exhibits
it) and its body is what `JSON.parse` receives — even if other brace text
exists; an empty capture group falls back to the whole match; any fenced
decomposition guarantees the matcher fires;
(b) with no fenced block, the candidate handed to `JSON.parse` is the greedy
span from the first opening brace to the last closing brace (NOT the first
top-level brace-delimited region), and a parse failure of that span aborts
generation without falling back to the whole text;
(c)/(d) with neither match, the whole text is parsed directly, and only that
failure raises the "Could not parse ... response as JSON" generation error. -/
theorem extraction_fallback_amended (failMsg : String) (t : String) :
    (∀ w b, matchFenced t.data = some (w, b) →
      (∃ pre post, t.data = pre ++ fenceOpenMark ++ b ++ fenceCloseMark ++ post) ∧
      extractJson failMsg t = parseCandidate (if b.isEmpty then w else b)) ∧
    (∀ pre body post, t.data = pre ++ fenceOpenMark ++ body ++ fenceCloseMark ++ post →
      matchFenced t.data ≠ none) ∧
    (matchFenced t.data = none →
      ∀ m, matchBrace t.data = some m →
        (∃ pre mid post, t.data = pre ++ braceOpen :: (mid ++ braceClose :: post) ∧
          braceOpen ∉ pre ∧ braceClose ∉ post ∧ m = braceOpen :: (mid ++ [braceClose])) ∧
        extractJson failMsg t = parseCandidate m) ∧
    (∀ pre mid post, t.data = pre ++ braceOpen :: (mid ++ braceClose :: post) →
      matchBrace t.data ≠ none) ∧
    (matchFenced t.data = none → matchBrace t.data = none →
      extractJson failMsg t = (match jsonParse t with
        | some j => Except.ok j
        | none => Except.error (.couldNotParse failMsg))) := by
  refine ⟨?_, ?_, ?_, ?_, ?_⟩
  · intro w b h
    exact ⟨(matchFenced_sound h).1, extractJson_fenced failMsg t w b h⟩
  · intro pre body post h
    exact matchFenced_complete h
  · intro hf m hb
    exact ⟨matchBrace_sound hb, extractJson_brace failMsg t m hf hb⟩
  · intro pre mid post h
    exact matchBrace_complete h
  · exact extractJson_direct failMsg t

/-- C2 counterexample — the claim's step (b) fails on the code: for a response
with two top-level brace regions and no fenced block, the first top-level
region is valid JSON (so the claim predicts a successful parse), but the code
hands the greedy first-`{`-to-last-`}` span to `JSON.parse`, which throws, and
generation aborts. -/
theorem extraction_first_region_counterexample :
    firstBraceRegionSpec ("\x7b\"a\": 1\x7d \x7b\"b\": 2\x7d" : String).data
      = some ("\x7b\"a\": 1\x7d" : String).data ∧
    jsonParse "\x7b\"a\": 1\x7d" = some (Json.obj [("a", Json.num "1")]) ∧
    matchFenced ("\x7b\"a\": 1\x7d \x7b\"b\": 2\x7d" : String).data = none ∧
    extractJson "Could not parse Gemini response as JSON" "\x7b\"a\": 1\x7d \x7b\"b\": 2\x7d"
      = .error .uncaughtParse :=
  ⟨rfl, rfl, rfl, rfl⟩

/-- Witness for the amended C2 theorem: a fenced response with extra brace
text elsewhere is parsed from the fenced body. -/
theorem extraction_fallback_amended_witness :
    extractJson "g" "see ```json\n\x7b\"a\":1\x7d\n``` and \x7b\"c\":2\x7d"
      = Except.ok (Json.obj [("a", Json.num "1")]) := by
  have h := ((extraction_fallback_amended "g"
      "see ```json\n\x7b\"a\":1\x7d\n``` and \x7b\"c\":2\x7d").1
      ("```json\n\x7b\"a\":1\x7d\n```" : String).data
      ("\x7b\"a\":1\x7d" : String).data rfl).2
  exact h.trans rfl

/-- C7 (amended) — Token-usage attachment: for the Gemini variant, absence of
usage reporting is not an error (the record is returned without `tokenInfo`),
and usage figures are attached when reported; for the GPT variant, the usage
object is read unconditionally, so a response without usage fails with a
`TypeError` even when the record parses. -/
theorem token_usage_absence_amended :
    (∀ (resp : GeminiResponse) (mt mx : Nat) (j : Json),
      resp.usageMetadata = none →
      extractJson "Could not parse Gemini response as JSON" resp.text = .ok j →
      generateMetadataWithGemini resp mt mx = .ok (validateAndFixMetadata j mt mx)) ∧
    (∀ (resp : GeminiResponse) (u : GeminiUsage) (mt mx : Nat) (j : Json),
      resp.usageMetadata = some u →
      extractJson "Could not parse Gemini response as JSON" resp.text = .ok j →
      ∃ F, validateAndFixMetadata j mt mx = Json.obj F ∧
        generateMetadataWithGemini resp mt mx = .ok (Json.obj (jsSet F "tokenInfo"
          (Json.obj [("prompt", Json.num (Nat.repr (u.promptTokenCount.getD 0))),
            ("total", Json.num (Nat.repr (u.totalTokenCount.getD 0)))])))) ∧
    (∀ resp : GptResponse, resp.usage = none →
      generateMetadataWithGPT resp = .error .typeError) := by
  refine ⟨?_, ?_, ?_⟩
  · intro resp mt mx j hus hext
    unfold generateMetadataWithGemini
    rw [hext]
    have htok : geminiTokensUsed resp = none := by
      unfold geminiTokensUsed
      rw [hus]
    rw [htok]
  · intro resp u mt mx j hus hext
    obtain ⟨F, final, hF, _⟩ := validate_fields_spec j mt mx
    refine ⟨F, hF, ?_⟩
    unfold generateMetadataWithGemini
    rw [hext]
    have htok : geminiTokensUsed resp = some (Json.obj
        [("prompt", Json.num (Nat.repr (u.promptTokenCount.getD 0))),
         ("total", Json.num (Nat.repr (u.totalTokenCount.getD 0)))]) := by
      unfold geminiTokensUsed
      rw [hus]
    rw [htok]
    show attachTokenInfo (validateAndFixMetadata j mt mx)
        (Json.obj [("prompt", Json.num (Nat.repr (u.promptTokenCount.getD 0))),
          ("total", Json.num (Nat.repr (u.totalTokenCount.getD 0)))]) = _
    rw [hF]
    rfl
  · intro resp husage
    unfold generateMetadataWithGPT
    rw [husage]

/-- C7 counterexample — the claim fails for the GPT variant: a response whose
text parses to a perfectly good record but which reports no usage makes
`generateMetadataWithGPT` fail with a `TypeError`, because
`response.usage.prompt_tokens` is read unconditionally. -/
theorem token_usage_absence_counterexample :
    extractJson "Could not parse GPT response as JSON" "\x7b\"title\":\"t\",\"tags\":[\"a\"]\x7d"
      = .ok (Json.obj [("title", Json.str "t"), ("tags", Json.arr [Json.str "a"])]) ∧
    generateMetadataWithGPT
      { content := "\x7b\"title\":\"t\",\"tags\":[\"a\"]\x7d", usage := none }
      = .error .typeError :=
  ⟨rfl, rfl⟩

/-- Witness for the amended C7 theorem: a usage-less Gemini response still
succeeds. -/
theorem token_usage_absence_amended_witness :
    generateMetadataWithGemini
      { text := "\x7b\"title\":\"t\",\"tags\":[\"a\"]\x7d", usageMetadata := none } 200 45
      = .ok (validateAndFixMetadata
          (Json.obj [("title", Json.str "t"), ("tags", Json.arr [Json.str "a"])]) 200 45) :=
  (token_usage_absence_amended).1
    { text := "\x7b\"title\":\"t\",\"tags\":[\"a\"]\x7d", usageMetadata := none } 200 45
    (Json.obj [("title", Json.str "t"), ("tags", Json.arr [Json.str "a"])]) rfl rfl

/-! ## The batch orchestrator (`processAllImages`)

The loop body is driven by per-item oracles standing for the outcome of the
collaborator calls: the generator (`generateMetadataWith{GPT,Gemini}` — a
successful call yields the metadata record), `writeMetadataToImage` (embed:
`ensureDir` + `copy` + `exiftool.write`; throws on failure), and
`fs.promises.unlink` on the original. Observable effects are recorded as a
trace of events. `config.delay` is the `delay` parameter (seconds). -/

/-- Model of `path.extname(file)` (posix): the suffix of the basename from its
last dot, empty when there is no dot or the only dot heads the basename.
(Node's special treatment of a basename of only dots is not distinguished.) -/
def extnameChars (cs : List Char) : List Char :=
  let base := (cs.reverse.takeWhile (fun c => c ≠ '/')).reverse
  let tail := base.reverse.takeWhile (fun c => c ≠ '.')
  if tail.length = base.length then []
  else if base.length = tail.length + 1 then []
  else '.' :: tail.reverse

/-- Model of `path.extname(file).toLowerCase()`. -/
def extnameLower (f : String) : String :=
  String.mk ((extnameChars f.data).map toLowerChar)

/-- The orchestrator's allow-list (`processAllImages`, line 403). -/
def orchestratorExts : List String := [".jpg", ".jpeg", ".png", ".gif", ".webp"]

/-- The menu layer's pre-scan allow-list (`processImages`, line 991) — no `.gif`. -/
def preScanExts : List String := [".jpg", ".jpeg", ".png", ".webp"]

def isImageFile (f : String) : Bool := orchestratorExts.contains (extnameLower f)

def isPreScanImage (f : String) : Bool := preScanExts.contains (extnameLower f)

inductive GenOutcome where
  | ok (metadata : Json)
  | err

inductive StepOutcome where
  | ok
  | err
  deriving DecidableEq

/-- Outcomes of one item's collaborator calls. -/
structure ItemOracle where
  gen : GenOutcome
  embed : StepOutcome
  unlink : StepOutcome

inductive Event where
  | genCall (i : Nat) (file : String)
  | embedded (i : Nat) (file : String)
  | deletedOriginal (i : Nat) (file : String)
  | delayed (seconds : Nat)
  deriving DecidableEq

structure Stats where
  total : Nat
  success : Nat
  failed : Nat
  deriving DecidableEq

/-- After a successful embed+delete the loop still prints
`metadata.title.length`, `metadata.tags.length` and `metadata.tags.join`; that
block throws (sending the item to the catch) unless the record is an object
whose `title` is present and non-null and whose `tags` is an array. -/
def displayOk (m : Json) : Bool :=
  match m with
  | .obj fs =>
    (match jsGet "title" fs with
     | some .null => false
     | some _ => true
     | none => false) &&
    (match jsGet "tags" fs with
     | some (.arr _) => true
     | _ => false)
  | _ => false

def genOkB (o : ItemOracle) : Bool := match o.gen with | .ok _ => true | .err => false

def embedOkB (o : ItemOracle) : Bool := match o.embed with | .ok => true | .err => false

def unlinkOkB (o : ItemOracle) : Bool := match o.unlink with | .ok => true | .err => false

/-- Whether the item reaches `stats.success++` (otherwise the catch runs
`stats.failed++`). -/
def itemSuccessB (o : ItemOracle) : Bool :=
  match o.gen with
  | .err => false
  | .ok m => embedOkB o && unlinkOkB o && displayOk m

/-- One iteration of the `for` loop body (without the inter-item delay):
generator call; on success `writeMetadataToImage`; on its success
`fs.promises.unlink(imagePath)`; then the display block. Any throw lands in
the per-item catch. Returns (reached success-increment?, events). -/
def processItem (i : Nat) (file : String) (o : ItemOracle) : Bool × List Event :=
  match o.gen with
  | .err => (false, [.genCall i file])
  | .ok m =>
    match o.embed with
    | .err => (false, [.genCall i file])
    | .ok =>
      match o.unlink with
      | .err => (false, [.genCall i file, .embedded i file])
      | .ok => (displayOk m, [.genCall i file, .embedded i file, .deletedOriginal i file])

/-- The `for (let i = 0; ...)` loop: success/failed counts plus the trace.
`if (i < imageFiles.length - 1 && config.delay > 0) await ...` after each item. -/
def runItems (delay : Nat) (oracle : Nat → ItemOracle) (n : Nat) :
    Nat → List String → Nat × Nat × List Event
  | _, [] => (0, 0, [])
  | i, f :: rest =>
    let r := processItem i f (oracle i)
    let dEvs := if i < n - 1 ∧ 0 < delay then [Event.delayed delay] else []
    let r' := runItems delay oracle n (i + 1) rest
    (r'.1 + (if r.1 then 1 else 0), r'.2.1 + (if r.1 then 0 else 1), r.2 ++ dEvs ++ r'.2.2)

/-- Model of `processAllImages(inputDir, outputDir, aiModel, apiKey, ...)`:
`allFiles` is the directory listing, filtered by the extension allow-list;
`stats.total` is set, and when no candidate remains the function warns and
executes a bare `return;` — i.e. it returns `undefined` (`none`), NOT the
stats object. Otherwise the loop runs and `stats` is returned. -/
def processAllImages (allFiles : List String) (delay : Nat) (oracle : Nat → ItemOracle) :
    Option Stats × List Event :=
  let imageFiles := allFiles.filter isImageFile
  if imageFiles.length = 0 then (none, [])
  else
    let r := runItems delay oracle imageFiles.length 0 imageFiles
    (some { total := imageFiles.length, success := r.1, failed := r.2.1 }, r.2.2)

def isDelayedB (e : Event) : Bool := match e with | .delayed _ => true | _ => false

theorem processItem_fst (i : Nat) (f : String) (o : ItemOracle) :
    (processItem i f o).1 = itemSuccessB o := by
  obtain ⟨g, e, u⟩ := o
  cases g <;> cases e <;> cases u <;>
    simp [processItem, itemSuccessB, embedOkB, unlinkOkB]

theorem processItem_ne_nil (i : Nat) (f : String) (o : ItemOracle) :
    (processItem i f o).2 ≠ [] := by
  obtain ⟨g, e, u⟩ := o
  cases g <;> cases e <;> cases u <;> simp [processItem]

theorem processItem_no_delay (i : Nat) (f : String) (o : ItemOracle) :
    ∀ e ∈ (processItem i f o).2, isDelayedB e = false := by
  obtain ⟨g, e, u⟩ := o
  cases g <;> cases e <;> cases u <;>
    (intro ev hev;
     simp only [processItem, List.mem_cons, List.mem_singleton, List.not_mem_nil] at hev) <;>
    (rcases hev with h | h | h | h <;> first
      | (subst h; rfl)
      | exact absurd h (by simp))

theorem processItem_last_not_delayed (i : Nat) (f : String) (o : ItemOracle) (s : Nat) :
    (processItem i f o).2.getLast? ≠ some (Event.delayed s) := by
  obtain ⟨g, e, u⟩ := o
  cases g <;> cases e <;> cases u <;> simp [processItem]

theorem processItem_genCall_mem (i j : Nat) (f g : String) (o : ItemOracle) :
    Event.genCall j g ∈ (processItem i f o).2 ↔ j = i ∧ g = f := by
  obtain ⟨ge, e, u⟩ := o
  cases ge <;> cases e <;> cases u <;>
    (simp [processItem]; try tauto)

theorem processItem_embedded_mem (i j : Nat) (f g : String) (o : ItemOracle) :
    Event.embedded j g ∈ (processItem i f o).2
      ↔ j = i ∧ g = f ∧ genOkB o = true ∧ embedOkB o = true := by
  obtain ⟨ge, e, u⟩ := o
  cases ge <;> cases e <;> cases u <;>
    (simp [processItem, genOkB, embedOkB]; try tauto)

theorem processItem_deleted_mem (i j : Nat) (f g : String) (o : ItemOracle) :
    Event.deletedOriginal j g ∈ (processItem i f o).2
      ↔ j = i ∧ g = f ∧ genOkB o = true ∧ embedOkB o = true ∧ unlinkOkB o = true := by
  obtain ⟨ge, e, u⟩ := o
  cases ge <;> cases e <;> cases u <;>
    (simp [processItem, genOkB, embedOkB, unlinkOkB]; try tauto)

theorem runItems_nil (delay : Nat) (oracle : Nat → ItemOracle) (n i : Nat) :
    runItems delay oracle n i [] = (0, 0, []) := rfl

theorem runItems_cons_success (delay : Nat) (oracle : Nat → ItemOracle) (n i : Nat)
    (f0 : String) (rest : List String) :
    (runItems delay oracle n i (f0 :: rest)).1
      = (runItems delay oracle n (i + 1) rest).1
        + (if (processItem i f0 (oracle i)).1 then 1 else 0) := rfl

theorem runItems_cons_failed (delay : Nat) (oracle : Nat → ItemOracle) (n i : Nat)
    (f0 : String) (rest : List String) :
    (runItems delay oracle n i (f0 :: rest)).2.1
      = (runItems delay oracle n (i + 1) rest).2.1
        + (if (processItem i f0 (oracle i)).1 then 0 else 1) := rfl

theorem runItems_cons_trace (delay : Nat) (oracle : Nat → ItemOracle) (n i : Nat)
    (f0 : String) (rest : List String) :
    (runItems delay oracle n i (f0 :: rest)).2.2
      = (processItem i f0 (oracle i)).2
        ++ (if i < n - 1 ∧ 0 < delay then [Event.delayed delay] else [])
        ++ (runItems delay oracle n (i + 1) rest).2.2 := rfl

theorem runItems_success (delay : Nat) (oracle : Nat → ItemOracle) (n : Nat) :
    ∀ (fs : List String) (i : Nat),
      (runItems delay oracle n i fs).1
        = (List.range' i fs.length).countP (fun k => itemSuccessB (oracle k)) := by
  intro fs
  induction fs with
  | nil => intro i; simp [runItems_nil]
  | cons f0 rest ih =>
    intro i
    rw [runItems_cons_success, List.length_cons, List.range'_succ, List.countP_cons]
    simp only [processItem_fst, ih (i + 1)]

theorem runItems_failed (delay : Nat) (oracle : Nat → ItemOracle) (n : Nat) :
    ∀ (fs : List String) (i : Nat),
      (runItems delay oracle n i fs).2.1
        = (List.range' i fs.length).countP (fun k => !(itemSuccessB (oracle k))) := by
  intro fs
  induction fs with
  | nil => intro i; simp [runItems_nil]
  | cons f0 rest ih =>
    intro i
    rw [runItems_cons_failed, List.length_cons, List.range'_succ, List.countP_cons]
    simp only [processItem_fst, ih (i + 1)]
    by_cases h : itemSuccessB (oracle i) = true
    · rw [if_pos h, if_neg (by simp [h])]
    · rw [if_neg h, if_pos (by simp [Bool.eq_false_iff.mpr (fun hc => h hc)])]

theorem delayed_not_mem_dEvs (delay n i : Nat) {ev : Event}
    (hne : isDelayedB ev = false) :
    ev ∉ (if i < n - 1 ∧ 0 < delay then [Event.delayed delay] else []) := by
  by_cases hc : i < n - 1 ∧ 0 < delay
  · rw [if_pos hc]
    intro hmem
    simp only [List.mem_singleton] at hmem
    rw [hmem] at hne
    simp [isDelayedB] at hne
  · rw [if_neg hc]
    exact List.not_mem_nil _

theorem runItems_genCall_iff (delay : Nat) (oracle : Nat → ItemOracle) (n : Nat) :
    ∀ (fs : List String) (i j : Nat) (g : String),
      Event.genCall j g ∈ (runItems delay oracle n i fs).2.2
        ↔ ∃ t, j = i + t ∧ fs[t]? = some g := by
  intro fs
  induction fs with
  | nil => intro i j g; simp [runItems_nil]
  | cons f0 rest ih =>
    intro i j g
    rw [runItems_cons_trace]
    simp only [List.mem_append]
    constructor
    · rintro ((h | h) | h)
      · obtain ⟨hj, hg⟩ := (processItem_genCall_mem i j f0 g (oracle i)).mp h
        exact ⟨0, by omega, by rw [hg]; simp⟩
      · exact absurd h (delayed_not_mem_dEvs delay n i (by rfl))
      · obtain ⟨t, hj, hget⟩ := (ih (i + 1) j g).mp h
        exact ⟨t + 1, by omega, by simpa using hget⟩
    · rintro ⟨t, hj, hget⟩
      cases t with
      | zero =>
        left; left
        rw [List.getElem?_cons_zero, Option.some.injEq] at hget
        exact (processItem_genCall_mem i j f0 g (oracle i)).mpr ⟨by omega, hget.symm⟩
      | succ s =>
        right
        exact (ih (i + 1) j g).mpr ⟨s, by omega, by simpa using hget⟩

theorem runItems_embedded_iff (delay : Nat) (oracle : Nat → ItemOracle) (n : Nat) :
    ∀ (fs : List String) (i j : Nat) (g : String),
      Event.embedded j g ∈ (runItems delay oracle n i fs).2.2
        ↔ ∃ t, j = i + t ∧ fs[t]? = some g
            ∧ genOkB (oracle j) = true ∧ embedOkB (oracle j) = true := by
  intro fs
  induction fs with
  | nil => intro i j g; simp [runItems_nil]
  | cons f0 rest ih =>
    intro i j g
    rw [runItems_cons_trace]
    simp only [List.mem_append]
    constructor
    · rintro ((h | h) | h)
      · obtain ⟨hj, hg, hgen, hemb⟩ := (processItem_embedded_mem i j f0 g (oracle i)).mp h
        subst hj
        exact ⟨0, by omega, by rw [hg]; simp, hgen, hemb⟩
      · exact absurd h (delayed_not_mem_dEvs delay n i (by rfl))
      · obtain ⟨t, hj, hget, hgen, hemb⟩ := (ih (i + 1) j g).mp h
        exact ⟨t + 1, by omega, by simpa using hget, hgen, hemb⟩
    · rintro ⟨t, hj, hget, hgen, hemb⟩
      cases t with
      | zero =>
        left; left
        rw [List.getElem?_cons_zero, Option.some.injEq] at hget
        have hji : j = i := by omega
        subst hji
        exact (processItem_embedded_mem j j f0 g (oracle j)).mpr ⟨rfl, hget.symm, hgen, hemb⟩
      | succ s =>
        right
        exact (ih (i + 1) j g).mpr ⟨s, by omega, by simpa using hget, hgen, hemb⟩

theorem runItems_deleted_iff (delay : Nat) (oracle : Nat → ItemOracle) (n : Nat) :
    ∀ (fs : List String) (i j : Nat) (g : String),
      Event.deletedOriginal j g ∈ (runItems delay oracle n i fs).2.2
        ↔ ∃ t, j = i + t ∧ fs[t]? = some g
            ∧ genOkB (oracle j) = true ∧ embedOkB (oracle j) = true
            ∧ unlinkOkB (oracle j) = true := by
  intro fs
  induction fs with
  | nil => intro i j g; simp [runItems_nil]
  | cons f0 rest ih =>
    intro i j g
    rw [runItems_cons_trace]
    simp only [List.mem_append]
    constructor
    · rintro ((h | h) | h)
      · obtain ⟨hj, hg, hgen, hemb, hunl⟩ := (processItem_deleted_mem i j f0 g (oracle i)).mp h
        subst hj
        exact ⟨0, by omega, by rw [hg]; simp, hgen, hemb, hunl⟩
      · exact absurd h (delayed_not_mem_dEvs delay n i (by rfl))
      · obtain ⟨t, hj, hget, hgen, hemb, hunl⟩ := (ih (i + 1) j g).mp h
        exact ⟨t + 1, by omega, by simpa using hget, hgen, hemb, hunl⟩
    · rintro ⟨t, hj, hget, hgen, hemb, hunl⟩
      cases t with
      | zero =>
        left; left
        rw [List.getElem?_cons_zero, Option.some.injEq] at hget
        have hji : j = i := by omega
        subst hji
        exact (processItem_deleted_mem j j f0 g (oracle j)).mpr
          ⟨rfl, hget.symm, hgen, hemb, hunl⟩
      | succ s =>
        right
        exact (ih (i + 1) j g).mpr ⟨s, by omega, by simpa using hget, hgen, hemb, hunl⟩

theorem runItems_delay_count (delay : Nat) (oracle : Nat → ItemOracle) (n : Nat) :
    ∀ (fs : List String) (i : Nat), i + fs.length = n →
      ((runItems delay oracle n i fs).2.2.countP isDelayedB)
        = if 0 < delay then fs.length - 1 else 0 := by
  intro fs
  induction fs with
  | nil =>
    intro i _
    rw [runItems_nil]
    simp
  | cons f0 rest ih =>
    intro i hn
    rw [runItems_cons_trace, List.countP_append, List.countP_append]
    have h0 : (processItem i f0 (oracle i)).2.countP isDelayedB = 0 := by
      rw [List.countP_eq_length_filter]
      have : (processItem i f0 (oracle i)).2.filter isDelayedB = [] := by
        rw [List.filter_eq_nil_iff]
        intro e he
        simp [processItem_no_delay i f0 (oracle i) e he]
      rw [this]
      rfl
    have hrest : (runItems delay oracle n (i + 1) rest).2.2.countP isDelayedB
        = if 0 < delay then rest.length - 1 else 0 := by
      apply ih
      rw [List.length_cons] at hn
      omega
    rw [h0, hrest]
    by_cases hd : 0 < delay
    · rw [if_pos hd, if_pos hd]
      cases rest with
      | nil =>
        have hnot : ¬ (i < n - 1 ∧ 0 < delay) := by
          rw [List.length_cons, List.length_nil] at hn
          intro ⟨hlt, _⟩
          omega
        rw [if_neg hnot]
        simp
      | cons r0 rtl =>
        have hyes : i < n - 1 ∧ 0 < delay := by
          refine ⟨?_, hd⟩
          rw [List.length_cons, List.length_cons] at hn
          omega
        rw [if_pos hyes]
        simp only [List.countP_cons, List.countP_nil, List.length_cons]
        have : isDelayedB (Event.delayed delay) = true := rfl
        rw [this]
        simp
        omega
    · rw [if_neg hd, if_neg hd]
      have hnot : ¬ (i < n - 1 ∧ 0 < delay) := fun ⟨_, hc⟩ => hd hc
      rw [if_neg hnot]
      rfl

theorem runItems_trace_ne_nil (delay : Nat) (oracle : Nat → ItemOracle) (n i : Nat)
    (f0 : String) (rest : List String) :
    (runItems delay oracle n i (f0 :: rest)).2.2 ≠ [] := by
  rw [runItems_cons_trace]
  intro h
  rcases List.append_eq_nil.mp ((List.append_eq_nil.mp h).1) with ⟨h1, _⟩
  exact processItem_ne_nil i f0 (oracle i) h1

theorem runItems_last_not_delayed (delay : Nat) (oracle : Nat → ItemOracle) (n : Nat) :
    ∀ (fs : List String) (i : Nat), i + fs.length = n → ∀ s,
      (runItems delay oracle n i fs).2.2.getLast? ≠ some (Event.delayed s) := by
  intro fs
  induction fs with
  | nil => intro i _ s; rw [runItems_nil]; simp
  | cons f0 rest ih =>
    intro i hn s
    rw [runItems_cons_trace]
    cases rest with
    | nil =>
      have hnot : ¬ (i < n - 1 ∧ 0 < delay) := by
        rw [List.length_cons, List.length_nil] at hn
        intro ⟨hlt, _⟩
        omega
      rw [if_neg hnot, runItems_nil]
      simp only [List.append_nil]
      exact processItem_last_not_delayed i f0 (oracle i) s
    | cons r0 rtl =>
      have htail : (runItems delay oracle n (i + 1) (r0 :: rtl)).2.2 ≠ [] :=
        runItems_trace_ne_nil delay oracle n (i + 1) r0 rtl
      rw [List.getLast?_append_of_ne_nil _ htail]
      apply ih
      rw [List.length_cons] at hn
      omega

/-! ### `processAllImages` -/

theorem processAllImages_empty (files : List String) (delay : Nat)
    (oracle : Nat → ItemOracle) (hempty : files.filter isImageFile = []) :
    processAllImages files delay oracle = (none, []) := by
  have hform : processAllImages files delay oracle
      = (if (files.filter isImageFile).length = 0 then ((none : Option Stats), ([] : List Event))
         else (some { total := (files.filter isImageFile).length,
                      success := (runItems delay oracle (files.filter isImageFile).length 0
                        (files.filter isImageFile)).1,
                      failed := (runItems delay oracle (files.filter isImageFile).length 0
                        (files.filter isImageFile)).2.1 },
               (runItems delay oracle (files.filter isImageFile).length 0
                 (files.filter isImageFile)).2.2)) := rfl
  rw [hform, if_pos (by rw [hempty]; rfl)]

theorem processAllImages_run (files : List String) (delay : Nat)
    (oracle : Nat → ItemOracle) (hne : files.filter isImageFile ≠ []) :
    processAllImages files delay oracle
      = (some { total := (files.filter isImageFile).length,
                success := (List.range (files.filter isImageFile).length).countP
                  (fun k => itemSuccessB (oracle k)),
                failed := (List.range (files.filter isImageFile).length).countP
                  (fun k => !(itemSuccessB (oracle k))) },
         (runItems delay oracle (files.filter isImageFile).length 0
           (files.filter isImageFile)).2.2) := by
  have hform : processAllImages files delay oracle
      = (if (files.filter isImageFile).length = 0 then ((none : Option Stats), ([] : List Event))
         else (some { total := (files.filter isImageFile).length,
                      success := (runItems delay oracle (files.filter isImageFile).length 0
                        (files.filter isImageFile)).1,
                      failed := (runItems delay oracle (files.filter isImageFile).length 0
                        (files.filter isImageFile)).2.1 },
               (runItems delay oracle (files.filter isImageFile).length 0
                 (files.filter isImageFile)).2.2)) := rfl
  rw [hform, if_neg (by simpa [List.length_eq_zero] using hne),
    runItems_success delay oracle (files.filter isImageFile).length (files.filter isImageFile) 0,
    runItems_failed delay oracle (files.filter isImageFile).length (files.filter isImageFile) 0,
    ← List.range_eq_range']

/-- Sum of the two outcome counters is the number of candidates. -/
theorem countP_success_add_failed (oracle : Nat → ItemOracle) (n : Nat) :
    (List.range n).countP (fun k => itemSuccessB (oracle k))
      + (List.range n).countP (fun k => !(itemSuccessB (oracle k))) = n := by
  have h := List.length_eq_countP_add_countP (fun k => itemSuccessB (oracle k)) (List.range n)
  rw [List.length_range] at h
  have hfun : (fun a => decide ¬ (itemSuccessB (oracle a)) = true)
      = (fun a => !(itemSuccessB (oracle a))) := by
    funext a
    cases itemSuccessB (oracle a) <;> rfl
  rw [hfun] at h
  omega

/-- C1 — Batch isolation: with well-formed generated records and successful
deletions, a failure in any single item's generation or embedding never aborts
the batch: the function returns statistics with `total` the candidate count,
`success`/`failed` counting exactly the items whose generation AND embedding
succeeded/failed, every candidate's generator is invoked, and an item is
embedded and its original deleted exactly when generation and embedding both
succeeded. -/
theorem batch_failure_isolation (files : List String) (delay : Nat)
    (oracle : Nat → ItemOracle)
    (hdisplay : ∀ i m, (oracle i).gen = GenOutcome.ok m → displayOk m = true)
    (hunlink : ∀ i, (oracle i).unlink = StepOutcome.ok)
    (hne : files.filter isImageFile ≠ []) :
    ∃ stats trace,
      processAllImages files delay oracle = (some stats, trace) ∧
      stats.total = (files.filter isImageFile).length ∧
      stats.success = (List.range stats.total).countP
        (fun k => genOkB (oracle k) && embedOkB (oracle k)) ∧
      stats.failed = (List.range stats.total).countP
        (fun k => !(genOkB (oracle k) && embedOkB (oracle k))) ∧
      stats.success + stats.failed = stats.total ∧
      (∀ j f, (files.filter isImageFile)[j]? = some f → Event.genCall j f ∈ trace) ∧
      (∀ j f, (files.filter isImageFile)[j]? = some f →
        ((Event.embedded j f ∈ trace)
          ↔ (genOkB (oracle j) && embedOkB (oracle j)) = true) ∧
        ((Event.deletedOriginal j f ∈ trace)
          ↔ (genOkB (oracle j) && embedOkB (oracle j)) = true)) := by
  have hitem : (fun k => itemSuccessB (oracle k))
      = (fun k => genOkB (oracle k) && embedOkB (oracle k)) := by
    funext k
    cases hg : (oracle k).gen with
    | err =>
      unfold itemSuccessB genOkB
      rw [hg]
      rfl
    | ok m =>
      unfold itemSuccessB genOkB
      rw [hg]
      show (embedOkB (oracle k) && unlinkOkB (oracle k) && displayOk m)
        = (true && embedOkB (oracle k))
      have hu : unlinkOkB (oracle k) = true := by
        unfold unlinkOkB
        rw [hunlink k]
      rw [hu, hdisplay k m hg]
      simp
  have hitem' : (fun k => !(itemSuccessB (oracle k)))
      = (fun k => !(genOkB (oracle k) && embedOkB (oracle k))) := by
    funext k
    rw [congrFun hitem k]
  refine ⟨_, _, processAllImages_run files delay oracle hne, rfl, ?_, ?_, ?_, ?_, ?_⟩
  · show (List.range (files.filter isImageFile).length).countP
        (fun k => itemSuccessB (oracle k))
      = (List.range (files.filter isImageFile).length).countP
        (fun k => genOkB (oracle k) && embedOkB (oracle k))
    rw [hitem]
  · show (List.range (files.filter isImageFile).length).countP
        (fun k => !(itemSuccessB (oracle k)))
      = (List.range (files.filter isImageFile).length).countP
        (fun k => !(genOkB (oracle k) && embedOkB (oracle k)))
    rw [hitem']
  · show (List.range (files.filter isImageFile).length).countP
        (fun k => itemSuccessB (oracle k))
      + (List.range (files.filter isImageFile).length).countP
        (fun k => !(itemSuccessB (oracle k)))
      = (files.filter isImageFile).length
    exact countP_success_add_failed oracle _
  · intro j f hj
    exact (runItems_genCall_iff delay oracle _ _ 0 j f).mpr ⟨j, by omega, hj⟩
  · intro j f hj
    constructor
    · constructor
      · intro hmem
        obtain ⟨t, ht, _, hgen, hemb⟩ :=
          (runItems_embedded_iff delay oracle _ _ 0 j f).mp hmem
        rw [hgen, hemb]
        rfl
      · intro hok
        refine (runItems_embedded_iff delay oracle _ _ 0 j f).mpr
          ⟨j, by omega, hj, ?_, ?_⟩
        · exact (Bool.and_eq_true .. ▸ hok).1
        · exact (Bool.and_eq_true .. ▸ hok).2
    · constructor
      · intro hmem
        obtain ⟨t, ht, _, hgen, hemb, _⟩ :=
          (runItems_deleted_iff delay oracle _ _ 0 j f).mp hmem
        rw [hgen, hemb]
        rfl
      · intro hok
        refine (runItems_deleted_iff delay oracle _ _ 0 j f).mpr
          ⟨j, by omega, hj, ?_, ?_, ?_⟩
        · exact (Bool.and_eq_true .. ▸ hok).1
        · exact (Bool.and_eq_true .. ▸ hok).2
        · unfold unlinkOkB
          rw [hunlink j]

/-- A well-formed generated record used by the concrete scenarios. -/
def demoMeta : Json := Json.obj [("title", Json.str "t"), ("tags", Json.arr [])]

/-- Oracle for the C1 scenario: item 2 (index 1) throws at generation,
items 1 and 3 succeed end-to-end. -/
def c1Oracle : Nat → ItemOracle := fun i =>
  if i = 1 then ⟨GenOutcome.err, StepOutcome.ok, StepOutcome.ok⟩
  else ⟨GenOutcome.ok demoMeta, StepOutcome.ok, StepOutcome.ok⟩

/-- Witness for C1 at the claim's concrete scenario: 3 files, item 2's
generator throws; the run returns `{total:3, success:2, failed:1}`, items 1
and 3 are embedded with originals deleted, item 2 is neither embedded nor has
its original deleted. -/
theorem batch_failure_isolation_witness :
    ∃ stats trace,
      processAllImages ["a.jpg", "b.jpg", "c.jpg"] 0 c1Oracle = (some stats, trace) ∧
      stats = { total := 3, success := 2, failed := 1 } ∧
      Event.genCall 0 "a.jpg" ∈ trace ∧ Event.genCall 1 "b.jpg" ∈ trace ∧
      Event.genCall 2 "c.jpg" ∈ trace ∧
      Event.embedded 0 "a.jpg" ∈ trace ∧ Event.embedded 2 "c.jpg" ∈ trace ∧
      Event.deletedOriginal 0 "a.jpg" ∈ trace ∧ Event.deletedOriginal 2 "c.jpg" ∈ trace ∧
      Event.embedded 1 "b.jpg" ∉ trace ∧ Event.deletedOriginal 1 "b.jpg" ∉ trace := by
  obtain ⟨stats, trace, heq, htot, hsucc, hfail, _, hgen, hev⟩ :=
    batch_failure_isolation ["a.jpg", "b.jpg", "c.jpg"] 0 c1Oracle
      (by
        intro i m h
        by_cases hi : i = 1
        · subst hi
          simp [c1Oracle] at h
        · have ho : c1Oracle i = ⟨GenOutcome.ok demoMeta, StepOutcome.ok, StepOutcome.ok⟩ := by
            simp [c1Oracle, hi]
          rw [ho] at h
          cases h
          decide)
      (by
        intro i
        by_cases hi : i = 1 <;> simp [c1Oracle, hi])
      (by decide)
  have hstats : stats = { total := 3, success := 2, failed := 1 } := by
    rcases stats with ⟨st, ss, sf⟩
    simp only at htot hsucc hfail
    have h3 : (["a.jpg", "b.jpg", "c.jpg"].filter isImageFile).length = 3 := by decide
    rw [h3] at htot
    subst htot
    rw [hsucc, hfail]
    have hs2 : (List.range 3).countP (fun k => genOkB (c1Oracle k) && embedOkB (c1Oracle k)) = 2 := by
      decide
    have hf1 : (List.range 3).countP (fun k => !(genOkB (c1Oracle k) && embedOkB (c1Oracle k))) = 1 := by
      decide
    rw [hs2, hf1]
  refine ⟨stats, trace, heq, hstats, hgen 0 "a.jpg" (by decide), hgen 1 "b.jpg" (by decide),
    hgen 2 "c.jpg" (by decide),
    (hev 0 "a.jpg" (by decide)).1.mpr (by decide),
    (hev 2 "c.jpg" (by decide)).1.mpr (by decide),
    (hev 0 "a.jpg" (by decide)).2.mpr (by decide),
    (hev 2 "c.jpg" (by decide)).2.mpr (by decide),
    fun hc => absurd ((hev 1 "b.jpg" (by decide)).1.mp hc) (by decide),
    fun hc => absurd ((hev 1 "b.jpg" (by decide)).2.mp hc) (by decide)⟩

/-- C5 (amended) — Empty-directory behavior: with zero matching-extension
files, `processAllImages` warns and executes a bare `return;`, so it returns
`undefined` (no statistics record) and performs no generator/provider calls
(the trace is empty). -/
theorem empty_dir_amended (files : List String) (delay : Nat)
    (oracle : Nat → ItemOracle) (hempty : files.filter isImageFile = []) :
    processAllImages files delay oracle = (none, []) :=
  processAllImages_empty files delay oracle hempty

/-- C5 counterexample — the claim as stated is false: on a directory with no
image files the function does NOT return `{total:0, success:0, failed:0}`;
it returns `undefined` (`none`). -/
theorem empty_dir_counterexample :
    processAllImages ["readme.txt", "notes.md"] 10
      (fun _ => ⟨GenOutcome.err, StepOutcome.err, StepOutcome.err⟩) = (none, []) ∧
    (processAllImages ["readme.txt", "notes.md"] 10
      (fun _ => ⟨GenOutcome.err, StepOutcome.err, StepOutcome.err⟩)).1
      ≠ some { total := 0, success := 0, failed := 0 } := by
  refine ⟨by decide, by decide⟩

/-- Witness for the amended C5 theorem. -/
theorem empty_dir_amended_witness :
    processAllImages ["readme.txt", "notes.md"] 10
      (fun _ => ⟨GenOutcome.err, StepOutcome.err, StepOutcome.err⟩) = (none, []) :=
  empty_dir_amended ["readme.txt", "notes.md"] 10
    (fun _ => ⟨GenOutcome.err, StepOutcome.err, StepOutcome.err⟩) (by decide)

/-- C6 — Embedding failure preserves the original: when an item's embed step
fails, that item is neither embedded nor has its original deleted, it is
counted as failed, and the batch still runs every candidate's generator. -/
theorem embed_failure_preserves_original (files : List String) (delay : Nat)
    (oracle : Nat → ItemOracle) (j : Nat) (f : String) (m : Json)
    (hj : (files.filter isImageFile)[j]? = some f)
    (hgen : (oracle j).gen = GenOutcome.ok m)
    (hembed : (oracle j).embed = StepOutcome.err) :
    ∃ stats trace,
      processAllImages files delay oracle = (some stats, trace) ∧
      Event.embedded j f ∉ trace ∧
      Event.deletedOriginal j f ∉ trace ∧
      itemSuccessB (oracle j) = false ∧
      stats.failed = (List.range stats.total).countP (fun k => !(itemSuccessB (oracle k))) ∧
      0 < stats.failed ∧
      (∀ k g, (files.filter isImageFile)[k]? = some g → Event.genCall k g ∈ trace) := by
  have hjlt : j < (files.filter isImageFile).length :=
    (List.getElem?_eq_some_iff.mp hj).1
  have hne : files.filter isImageFile ≠ [] := by
    intro hc
    rw [hc] at hjlt
    simp at hjlt
  have hembedB : embedOkB (oracle j) = false := by
    unfold embedOkB
    rw [hembed]
  have hsuccB : itemSuccessB (oracle j) = false := by
    unfold itemSuccessB
    rw [hgen, hembedB]
    rfl
  refine ⟨_, _, processAllImages_run files delay oracle hne, ?_, ?_, hsuccB, rfl, ?_, ?_⟩
  · intro hmem
    obtain ⟨t, _, _, _, hemb⟩ :=
      (runItems_embedded_iff delay oracle _ _ 0 j f).mp hmem
    rw [hembedB] at hemb
    cases hemb
  · intro hmem
    obtain ⟨t, _, _, _, hemb, _⟩ :=
      (runItems_deleted_iff delay oracle _ _ 0 j f).mp hmem
    rw [hembedB] at hemb
    cases hemb
  · rw [List.countP_pos_iff]
    exact ⟨j, List.mem_range.mpr hjlt, by rw [hsuccB]; rfl⟩
  · intro k g hk
    exact (runItems_genCall_iff delay oracle _ _ 0 k g).mpr ⟨k, by omega, hk⟩

/-- Oracle for the C6 scenario: the only item generates fine but embedding
throws. -/
def c6Oracle : Nat → ItemOracle :=
  fun _ => ⟨GenOutcome.ok demoMeta, StepOutcome.err, StepOutcome.ok⟩

/-- Witness for C6 at a concrete scenario. -/
theorem embed_failure_preserves_original_witness :
    ∃ stats trace,
      processAllImages ["a.jpg", "b.jpg"] 0 c6Oracle = (some stats, trace) ∧
      Event.embedded 0 "a.jpg" ∉ trace ∧
      Event.deletedOriginal 0 "a.jpg" ∉ trace ∧
      itemSuccessB (c6Oracle 0) = false ∧
      stats.failed = (List.range stats.total).countP (fun k => !(itemSuccessB (c6Oracle k))) ∧
      0 < stats.failed ∧
      (∀ k g, (["a.jpg", "b.jpg"].filter isImageFile)[k]? = some g →
        Event.genCall k g ∈ trace) :=
  embed_failure_preserves_original ["a.jpg", "b.jpg"] 0 c6Oracle 0 "a.jpg" demoMeta
    (by decide) rfl rfl

/-- C9 — Delay suppression on the last item: with `delay > 0` the trace holds
exactly `N − 1` inter-item delay events for `N` candidates; with `delay = 0`
none; and the trace never ends with a delay (no delay after the final item). -/
theorem delay_suppression_last_item (files : List String) (delay : Nat)
    (oracle : Nat → ItemOracle) :
    (0 < delay →
      ((processAllImages files delay oracle).2.countP isDelayedB)
        = (files.filter isImageFile).length - 1) ∧
    (delay = 0 →
      ((processAllImages files delay oracle).2.countP isDelayedB) = 0) ∧
    (∀ s, (processAllImages files delay oracle).2.getLast? ≠ some (Event.delayed s)) := by
  by_cases hempty : files.filter isImageFile = []
  · rw [processAllImages_empty files delay oracle hempty, hempty]
    refine ⟨fun _ => rfl, fun _ => rfl, fun s => by simp⟩
  · rw [processAllImages_run files delay oracle hempty]
    have hcount := runItems_delay_count delay oracle (files.filter isImageFile).length
      (files.filter isImageFile) 0 (by omega)
    refine ⟨?_, ?_, ?_⟩
    · intro hd
      show (runItems delay oracle (files.filter isImageFile).length 0
          (files.filter isImageFile)).2.2.countP isDelayedB
        = (files.filter isImageFile).length - 1
      rw [hcount, if_pos hd]
    · intro hd
      subst hd
      show (runItems 0 oracle (files.filter isImageFile).length 0
          (files.filter isImageFile)).2.2.countP isDelayedB = 0
      rw [hcount]
      rfl
    · intro s
      show (runItems delay oracle (files.filter isImageFile).length 0
          (files.filter isImageFile)).2.2.getLast? ≠ some (Event.delayed s)
      exact runItems_last_not_delayed delay oracle (files.filter isImageFile).length
        (files.filter isImageFile) 0 (by omega) s

/-- Witness for C9: three candidates with a 2-second delay show exactly two
delay events and none at the end of the trace. -/
theorem delay_suppression_last_item_witness :
    ((processAllImages ["a.jpg", "b.jpg", "c.jpg"] 2 c1Oracle).2.countP isDelayedB) = 2 ∧
    (∀ s, (processAllImages ["a.jpg", "b.jpg", "c.jpg"] 2 c1Oracle).2.getLast?
      ≠ some (Event.delayed s)) := by
  obtain ⟨h1, _, h3⟩ := delay_suppression_last_item ["a.jpg", "b.jpg", "c.jpg"] 2 c1Oracle
  exact ⟨(h1 (by decide)).trans (by decide), h3⟩

/-- Oracle for the C10 scenario. -/
def demoOracle : Nat → ItemOracle :=
  fun _ => ⟨GenOutcome.ok demoMeta, StepOutcome.ok, StepOutcome.ok⟩

/-- C10 — Extension-filter disagreement: the orchestrator allow-list and the
menu pre-scan list agree on every file name except `.gif` (case-insensitive);
a directory with only a `.gif` file counts 0 in the pre-scan yet the
orchestrator counts it in `total` and processes it. -/
theorem extension_filter_disagreement :
    (∀ f : String, isImageFile f = (isPreScanImage f || (extnameLower f == ".gif"))) ∧
    isPreScanImage "photo.gif" = false ∧
    isImageFile "photo.gif" = true ∧
    (["photo.gif"].filter isPreScanImage).length = 0 ∧
    (∃ stats trace,
      processAllImages ["photo.gif"] 0 demoOracle = (some stats, trace) ∧
      stats.total = 1 ∧ Event.genCall 0 "photo.gif" ∈ trace) := by
  refine ⟨?_, by decide, by decide, by decide, ?_⟩
  · intro f
    unfold isImageFile isPreScanImage orchestratorExts preScanExts
    simp only [List.contains_cons, List.contains_nil]
    cases hjpg : (extnameLower f == ".jpg") <;>
      cases hjpeg : (extnameLower f == ".jpeg") <;>
      cases hpng : (extnameLower f == ".png") <;>
      cases hgif : (extnameLower f == ".gif") <;>
      cases hwebp : (extnameLower f == ".webp") <;> rfl
  · exact ⟨{ total := 1, success := 1, failed := 0 },
      [Event.genCall 0 "photo.gif", Event.embedded 0 "photo.gif",
       Event.deletedOriginal 0 "photo.gif"], by decide, rfl, by decide⟩

end NodeMetadata
